import Mathlib

/-!
Verification of core algorithms of the backy-db backup engine.

Each definition is a shallow embedding of a function of the Python source
tree (file and function names are given in the doc comments).  Python
dicts are modelled as insertion-ordered association lists, bytes as
`List Nat` (each entry < 256), and raised exceptions as `Except` errors
carrying the Python exception message.
-/

namespace Backy

/-! ## Insertion-ordered association lists (Python `dict` / `defaultdict`) -/

/-- Lookup in an insertion-ordered association list (`d[k]` / `k in d`). -/
def omFind {α : Type} : List (String × α) → String → Option α
  | [], _ => none
  | (k, v) :: rest, key => if k = key then some v else omFind rest key

/-- Lookup with a default (`defaultdict` read). -/
def omGetD {α : Type} (m : List (String × α)) (key : String) (d : α) : α :=
  (omFind m key).getD d

/-- `d[k] = v`: update in place if the key exists, else append (dict insertion order). -/
def omSet {α : Type} : List (String × α) → String → α → List (String × α)
  | [], key, v => [(key, v)]
  | (k, w) :: rest, key, v =>
    if k = key then (k, v) :: rest else (k, w) :: omSet rest key v

/-- `d.setdefault(k, v)`: append `(k, v)` only when `k` is absent. -/
def omSetdefault {α : Type} (m : List (String × α)) (key : String) (v : α) :
    List (String × α) :=
  match omFind m key with
  | some _ => m
  | none => m ++ [(key, v)]

/-- `defaultdict(list)`: `d[k].append(x)`. -/
def omListAppend {α : Type} (m : List (String × List α)) (key : String) (x : α) :
    List (String × List α) :=
  omSet m key (omGetD m key [] ++ [x])

/-- `defaultdict(int)`: `d[k] += n` (Python ints, so values live in `Int`). -/
def omIntAdd (m : List (String × Int)) (key : String) (n : Int) :
    List (String × Int) :=
  omSet m key (omGetD m key 0 + n)

/-! ## `DatabaseBase.topological_sort` (src/databases/database_base.py)

Kahn's algorithm over the dependency mapping `deps` (child ↦ list of
parents).  The Python `while queue` loop is embedded with explicit fuel;
`in_degree.length` units of fuel are enough because every node is
enqueued at most once (proved below), so the fuelled loop computes
exactly what the unbounded loop computes. -/

/-- One iteration of the graph/in-degree construction loop of
`topological_sort`: for each `(child, parents)` entry,
`graph[parent].append(child)` and `in_degree[child] += 1` per parent, then
`in_degree.setdefault(child, 0)`. -/
def buildStep (gd : List (String × List String) × List (String × Int))
    (cp : String × List String) :
    List (String × List String) × List (String × Int) :=
  let gd2 := cp.2.foldl
    (fun gd2 parent => (omListAppend gd2.1 parent cp.1, omIntAdd gd2.2 cp.1 1))
    gd
  (gd2.1, omSetdefault gd2.2 cp.1 0)

/-- The graph/in-degree construction loop of `topological_sort`. -/
def buildGraphDeg (deps : List (String × List String)) :
    List (String × List String) × List (String × Int) :=
  deps.foldl buildStep ([], [])

/-- Inner `for neighbor in graph[node]` loop: decrement the neighbour's
in-degree and enqueue it when the count reaches zero. -/
def processNeighbors (deg : List (String × Int)) (queue : List String) :
    List String → List (String × Int) × List String
  | [] => (deg, queue)
  | nb :: rest =>
    let d := omGetD deg nb 0 - 1
    let deg2 := omSet deg nb d
    let queue2 := if d = 0 then queue ++ [nb] else queue
    processNeighbors deg2 queue2 rest

/-- The `while queue:` loop of `topological_sort`, with explicit fuel.
Returns the emitted order together with the final in-degree map and
whatever is left of the queue. -/
def kahnLoop (g : List (String × List String)) :
    Nat → List (String × Int) → List String → List String →
    List String × List (String × Int) × List String
  | 0, deg, queue, out => (out, deg, queue)
  | _ + 1, deg, [], out => (out, deg, [])
  | fuel + 1, deg, node :: rest, out =>
    let dq := processNeighbors deg rest (omGetD g node [])
    kahnLoop g fuel dq.1 dq.2 (out ++ [node])

/-- Message of the `RuntimeError` raised on a failed sort. -/
def cycleMsg : String :=
  "Cycle detected in dependency graph, cannot perform topological sort."

/-- `DatabaseBase.topological_sort(deps)`: Kahn's algorithm; raises
`RuntimeError` when fewer nodes were emitted than `len(in_degree)`. -/
def topological_sort (deps : List (String × List String)) :
    Except String (List String) :=
  let gd := buildGraphDeg deps
  let queue := (gd.2.filter (fun kv => kv.2 = 0)).map Prod.fst
  let res := kahnLoop gd.1 gd.2.length gd.2 queue []
  if res.1.length = gd.2.length then .ok res.1 else .error cycleMsg

/-! ### Claim-side notions for the dependency sorter -/

/-- The keys of a dependency mapping (the declared objects). -/
def keysOf (deps : List (String × List String)) : List String := deps.map Prod.fst

/-- The dependency (prerequisite) list of `c`, empty when `c` is not a key. -/
def depsList (deps : List (String × List String)) (c : String) : List String :=
  (omFind deps c).getD []

/-- Every name referenced in a dependency list is itself a key. -/
def ClosedDeps (deps : List (String × List String)) : Prop :=
  ∀ cp ∈ deps, ∀ p ∈ cp.2, p ∈ keysOf deps

/-- Acyclicity, expressed by a topological ranking of the names: every
prerequisite ranks strictly below its dependent.  For finite graphs this
is the standard characterisation of a DAG. -/
def RankAcyclic (deps : List (String × List String)) : Prop :=
  ∃ r : String → Nat, ∀ cp ∈ deps, ∀ p ∈ cp.2, r p < r cp.1

/-- `c` directly depends on `p`. -/
def depOn (deps : List (String × List String)) (c p : String) : Prop :=
  p ∈ depsList deps c

/-- The graph contains a directed dependency cycle `f 0 → f 1 → ⋯ → f n = f 0`. -/
def HasCycle (deps : List (String × List String)) : Prop :=
  ∃ (f : Nat → String) (n : Nat),
    0 < n ∧ f n = f 0 ∧ ∀ i < n, depOn deps (f i) (f (i + 1))

/-- Every emitted node appears after all of its prerequisites. -/
def RespectsDeps (deps : List (String × List String)) (l : List String) : Prop :=
  ∀ k c, l.get? k = some c → ∀ p ∈ depsList deps c, ∃ m, m < k ∧ l.get? m = some p

/-! ### Basic association-list lemmas -/

theorem omFind_eq_none {α : Type} (m : List (String × α)) (k : String)
    (h : k ∉ m.map Prod.fst) : omFind m k = none := by
  induction m with
  | nil => rfl
  | cons hd tl ih =>
    simp only [List.map_cons, List.mem_cons] at h
    push_neg at h
    have hne : ¬ hd.1 = k := fun e => h.1 e.symm
    simp only [omFind, if_neg hne]
    exact ih h.2

theorem omFind_isSome_iff {α : Type} (m : List (String × α)) (k : String) :
    (omFind m k).isSome ↔ k ∈ m.map Prod.fst := by
  induction m with
  | nil => simp [omFind]
  | cons hd tl ih =>
    by_cases h : hd.1 = k
    · simp [omFind, h]
    · simp only [omFind, if_neg h, List.map_cons, List.mem_cons]
      rw [ih]
      constructor
      · exact Or.inr
      · rintro (e | hm)
        · exact absurd e.symm h
        · exact hm

theorem mem_of_omFind_eq_some {α : Type} {m : List (String × α)} {k : String}
    {v : α} (h : omFind m k = some v) : (k, v) ∈ m := by
  induction m with
  | nil => simp [omFind] at h
  | cons hd tl ih =>
    by_cases e : hd.1 = k
    · simp only [omFind, if_pos e] at h
      have hv : hd.2 = v := Option.some.inj h
      have : (k, v) = hd := by rw [← e, ← hv]
      rw [← this] at *
      exact List.mem_cons_self _ _
    · simp only [omFind, if_neg e] at h
      exact List.mem_cons_of_mem _ (ih h)

theorem omFind_eq_some_of_mem {α : Type} {m : List (String × α)} {k : String}
    {v : α} (hnd : (m.map Prod.fst).Nodup) (h : (k, v) ∈ m) :
    omFind m k = some v := by
  induction m with
  | nil => simp at h
  | cons hd tl ih =>
    simp only [List.map_cons, List.nodup_cons] at hnd
    rcases List.mem_cons.mp h with e | hm
    · cases e
      simp [omFind]
    · have hk : hd.1 ≠ k := by
        intro e
        exact hnd.1 (e ▸ List.mem_map_of_mem Prod.fst hm)
      simp only [omFind, if_neg hk]
      exact ih hnd.2 hm

theorem key_mem_of_omFind_eq_some {α : Type} {m : List (String × α)} {k : String}
    {v : α} (h : omFind m k = some v) : k ∈ m.map Prod.fst := by
  rw [← omFind_isSome_iff, h]
  rfl

theorem omFind_omSet {α : Type} (m : List (String × α)) (k key : String) (v : α) :
    omFind (omSet m k v) key = if k = key then some v else omFind m key := by
  induction m with
  | nil =>
    by_cases e : k = key <;> simp [omSet, omFind, e]
  | cons hd tl ih =>
    by_cases e1 : hd.1 = k
    · by_cases e2 : k = key <;> simp [omSet, omFind, e1, e2, e1.trans]
    · by_cases e2 : hd.1 = key
      · have hk : ¬ k = key := fun e => e1 (e2.trans e.symm)
        have hk2 : ¬ key = k := fun e => hk e.symm
        simp [omSet, omFind, e1, e2, hk, hk2]
      · simp [omSet, omFind, e1, e2, ih]

theorem omSet_map_fst {α : Type} (m : List (String × α)) (k : String) (v : α)
    (h : k ∈ m.map Prod.fst) : (omSet m k v).map Prod.fst = m.map Prod.fst := by
  induction m with
  | nil => simp at h
  | cons hd tl ih =>
    by_cases e : hd.1 = k
    · simp [omSet, e]
    · simp only [List.map_cons, List.mem_cons] at h
      rcases h with h | h
      · exact absurd h.symm e
      · simp [omSet, e, ih h]

theorem omSet_append_of_absent {α : Type} (m : List (String × α)) (k : String)
    (v : α) (h : omFind m k = none) : omSet m k v = m ++ [(k, v)] := by
  induction m with
  | nil => rfl
  | cons hd tl ih =>
    by_cases e : hd.1 = k
    · simp [omFind, e] at h
    · simp only [omFind, if_neg e] at h
      simp [omSet, e, ih h]

theorem omSet_omSet {α : Type} (m : List (String × α)) (k : String) (a b : α) :
    omSet (omSet m k a) k b = omSet m k b := by
  induction m with
  | nil => simp [omSet]
  | cons hd tl ih =>
    by_cases e : hd.1 = k <;> simp [omSet, e, ih]

theorem omFind_append_right {α : Type} (a b : List (String × α)) (k : String)
    (h : omFind a k = none) : omFind (a ++ b) k = omFind b k := by
  induction a with
  | nil => rfl
  | cons hd tl ih =>
    by_cases e : hd.1 = k
    · simp [omFind, e] at h
    · simp only [omFind, if_neg e] at h
      simpa [omFind, e] using ih h

theorem omFind_append_left {α : Type} {a : List (String × α)} (b : List (String × α))
    {k : String} {v : α} (h : omFind a k = some v) :
    omFind (a ++ b) k = some v := by
  induction a with
  | nil => simp [omFind] at h
  | cons hd tl ih =>
    by_cases e : hd.1 = k
    · simp only [omFind, if_pos e] at h ⊢
      exact h
    · simp only [omFind, if_neg e] at h ⊢
      exact ih h

/-! ### Characterisation of `buildGraphDeg` -/

/-- What the in-degree construction computes: each key paired with the length
of its dependency list (Python ints, hence `Int`). -/
def degSpec (deps : List (String × List String)) : List (String × Int) :=
  deps.map (fun cp => (cp.1, (cp.2.length : Int)))

/-- What the adjacency construction computes for one parent `p`: the children
of `p`, one occurrence per edge, in mapping order. -/
def childrenSpec (deps : List (String × List String)) (p : String) : List String :=
  (deps.map (fun cp => List.replicate (cp.2.count p) cp.1)).flatten

theorem inner_fold_deg (c : String) :
    ∀ (ps : List String) (g : List (String × List String)) (d : List (String × Int)),
    (ps.foldl (fun gd2 parent => (omListAppend gd2.1 parent c, omIntAdd gd2.2 c 1)) (g, d)).2
      = if ps = [] then d else omSet d c (omGetD d c 0 + (ps.length : Int)) := by
  intro ps
  induction ps with
  | nil => intro g d; simp
  | cons q rest ih =>
    intro g d
    rw [List.foldl_cons, ih]
    by_cases hr : rest = []
    · subst hr
      simp [omIntAdd]
    · rw [if_neg hr, if_neg (by simp)]
      show omSet (omIntAdd d c 1) c _ = _
      rw [omIntAdd]
      have hv : omGetD (omSet d c (omGetD d c 0 + 1)) c 0 = omGetD d c 0 + 1 := by
        simp [omGetD, omFind_omSet]
      rw [hv, omSet_omSet]
      congr 1
      simp only [List.length_cons]
      push_cast
      ring

theorem inner_fold_graph (c : String) :
    ∀ (ps : List String) (g : List (String × List String)) (d : List (String × Int))
      (p : String),
    omGetD (ps.foldl (fun gd2 parent => (omListAppend gd2.1 parent c, omIntAdd gd2.2 c 1)) (g, d)).1 p []
      = omGetD g p [] ++ List.replicate (ps.count p) c := by
  intro ps
  induction ps with
  | nil => intro g d p; simp
  | cons q rest ih =>
    intro g d p
    rw [List.foldl_cons, ih]
    by_cases e : p = q
    · subst e
      have h1 : omGetD (omListAppend g p c) p [] = omGetD g p [] ++ [c] := by
        simp [omListAppend, omGetD, omFind_omSet]
      have h2 : (p :: rest).count p = rest.count p + 1 := by
        simp [List.count_cons]
      rw [h1, h2, List.append_assoc]
      simp [List.replicate_succ]
    · have h1 : omGetD (omListAppend g q c) p [] = omGetD g p [] := by
        have : ¬ q = p := fun h => e h.symm
        simp [omListAppend, omGetD, omFind_omSet, this]
      have h2 : (q :: rest).count p = rest.count p := by
        simp [List.count_cons, e]
      rw [h1, h2]

theorem build_fold_spec :
    ∀ (deps : List (String × List String)) (g : List (String × List String))
      (d : List (String × Int)),
    (keysOf deps).Nodup → (∀ k ∈ keysOf deps, omFind d k = none) →
    (deps.foldl buildStep (g, d)).2 = d ++ degSpec deps ∧
    ∀ p, omGetD (deps.foldl buildStep (g, d)).1 p []
      = omGetD g p [] ++ childrenSpec deps p := by
  intro deps
  induction deps with
  | nil => intro g d _ _; simp [degSpec, childrenSpec]
  | cons cp rest ih =>
    intro g d hnd habs
    obtain ⟨c, ps⟩ := cp
    simp only [keysOf, List.map_cons, List.nodup_cons] at hnd
    have hdc : omFind d c = none := by
      refine habs c ?_
      simp [keysOf]
    have hdeg1 : omSetdefault
        (ps.foldl (fun gd2 parent => (omListAppend gd2.1 parent c, omIntAdd gd2.2 c 1)) (g, d)).2
        c 0 = d ++ [(c, (ps.length : Int))] := by
      rw [inner_fold_deg c ps g d]
      by_cases hps : ps = []
      · subst hps
        simp [omSetdefault, hdc]
      · rw [if_neg hps]
        have hset : omSet d c (omGetD d c 0 + (ps.length : Int)) = d ++ [(c, (ps.length : Int))] := by
          rw [omSet_append_of_absent d c _ hdc]
          simp [omGetD, hdc]
        rw [hset, omSetdefault]
        rw [omFind_append_right d _ c hdc]
        simp [omFind]
    have hstep : buildStep (g, d) (c, ps)
        = ((ps.foldl (fun gd2 parent => (omListAppend gd2.1 parent c, omIntAdd gd2.2 c 1)) (g, d)).1,
           d ++ [(c, (ps.length : Int))]) := by
      rw [buildStep, Prod.mk.injEq]
      exact ⟨rfl, hdeg1⟩
    have hnext : ∀ k ∈ keysOf rest, omFind (d ++ [(c, (ps.length : Int))]) k = none := by
      intro k hk
      have hmem : k ∈ keysOf ((c, ps) :: rest) := by
        simp only [keysOf, List.map_cons, List.mem_cons]
        right
        exact hk
      rw [omFind_append_right d _ k (habs k hmem)]
      have : ¬ c = k := fun e => hnd.1 (e ▸ hk)
      simp [omFind, this]
    have ihr := ih
      (ps.foldl (fun gd2 parent => (omListAppend gd2.1 parent c, omIntAdd gd2.2 c 1)) (g, d)).1
      (d ++ [(c, (ps.length : Int))]) hnd.2 hnext
    rw [List.foldl_cons, hstep]
    constructor
    · rw [ihr.1]
      simp [degSpec]
    · intro p
      rw [ihr.2 p, inner_fold_graph]
      simp [childrenSpec, List.append_assoc]

theorem buildGraphDeg_deg (deps : List (String × List String))
    (hnd : (keysOf deps).Nodup) : (buildGraphDeg deps).2 = degSpec deps := by
  have := (build_fold_spec deps [] [] hnd (fun k _ => rfl)).1
  simpa [buildGraphDeg] using this

theorem buildGraphDeg_graph (deps : List (String × List String))
    (hnd : (keysOf deps).Nodup) (p : String) :
    omGetD (buildGraphDeg deps).1 p [] = childrenSpec deps p := by
  have := (build_fold_spec deps [] [] hnd (fun k _ => rfl)).2 p
  simpa [buildGraphDeg, omGetD, omFind] using this

theorem omFind_degSpec (deps : List (String × List String)) (k : String) :
    omFind (degSpec deps) k = (omFind deps k).map (fun ps => (ps.length : Int)) := by
  induction deps with
  | nil => rfl
  | cons hd tl ih =>
    by_cases e : hd.1 = k <;> simp [degSpec, omFind, e] <;> simpa [degSpec] using ih

theorem degSpec_map_fst (deps : List (String × List String)) :
    (degSpec deps).map Prod.fst = keysOf deps := by
  simp [degSpec, keysOf]

theorem mem_keys_of_mem_childrenSpec {deps : List (String × List String)}
    {p c : String} (h : c ∈ childrenSpec deps p) : c ∈ keysOf deps := by
  simp only [childrenSpec, List.mem_flatten, List.mem_map] at h
  obtain ⟨l, ⟨cp, hcp, hl⟩, hc⟩ := h
  rw [← hl] at hc
  have := List.eq_of_mem_replicate hc
  rw [this]
  exact List.mem_map_of_mem Prod.fst hcp

theorem count_childrenSpec {deps : List (String × List String)}
    (hnd : (keysOf deps).Nodup) (p c : String) :
    (childrenSpec deps p).count c = (depsList deps c).count p := by
  induction deps with
  | nil => simp [childrenSpec, depsList, omFind]
  | cons hd tl ih =>
    simp only [keysOf, List.map_cons, List.nodup_cons] at hnd
    have hsplit : childrenSpec (hd :: tl) p
        = List.replicate (hd.2.count p) hd.1 ++ childrenSpec tl p := by
      simp [childrenSpec]
    rw [hsplit, List.count_append]
    by_cases e : hd.1 = c
    · subst e
      have h0 : (childrenSpec tl p).count hd.1 = 0 := by
        rw [List.count_eq_zero]
        intro hmem
        exact hnd.1 (mem_keys_of_mem_childrenSpec hmem)
      rw [h0, List.count_replicate]
      simp [depsList, omFind]
    · have h0 : (List.replicate (hd.2.count p) hd.1).count c = 0 := by
        rw [List.count_eq_zero]
        intro hmem
        exact e (List.eq_of_mem_replicate hmem).symm
      rw [h0, ih hnd.2]
      simp [depsList, omFind, e]

/-- The number of prerequisite occurrences of `l` already emitted in `out`. -/
def outCount (out l : List String) : Nat :=
  l.countP (fun p => decide (p ∈ out))

theorem outCount_nil (l : List String) : outCount [] l = 0 := by
  simp [outCount]

theorem outCount_le_length (out l : List String) : outCount out l ≤ l.length :=
  List.countP_le_length _

theorem outCount_eq_length_iff (out l : List String) :
    outCount out l = l.length ↔ ∀ p ∈ l, p ∈ out := by
  unfold outCount
  rw [List.countP_eq_length]
  simp

theorem outCount_append_single {out : List String} (node : String)
    (h : node ∉ out) (l : List String) :
    outCount (out ++ [node]) l = outCount out l + l.count node := by
  induction l with
  | nil => simp [outCount]
  | cons q rest ih =>
    simp only [outCount, List.countP_cons, List.count_cons] at *
    rw [ih]
    by_cases e : q = node
    · subst e
      have h1 : decide (q ∈ out ++ [q]) = true := by simp
      have h2 : decide (q ∈ out) = false := by simpa using h
      simp [h1, h2]
      omega
    · have h2 : (q == node) = false := by
        simpa using e
      simp [h2, List.mem_append, e]
      omega

theorem outCount_all_mem {out l : List String} (h : ∀ p ∈ l, p ∈ out) :
    outCount out l = l.length :=
  (outCount_eq_length_iff out l).mpr h

/-! ### The loop invariant of Kahn's algorithm -/

/-- Invariant at the head of the `while queue:` loop. -/
structure KahnInv (deps : List (String × List String)) (deg : List (String × Int))
    (queue out : List String) : Prop where
  nodup : (out ++ queue).Nodup
  sub : ∀ c ∈ out ++ queue, c ∈ keysOf deps
  degkeys : deg.map Prod.fst = keysOf deps
  degval : ∀ c ∈ keysOf deps,
    omFind deg c
      = some (((depsList deps c).length : Int) - (outCount out (depsList deps c) : Int))
  queueGood : ∀ c ∈ queue, ∀ p ∈ depsList deps c, p ∈ out
  outParents : ∀ c ∈ out, ∀ p ∈ depsList deps c, p ∈ out
  outGood : RespectsDeps deps out
  zeroin : ∀ c ∈ keysOf deps, omFind deg c = some 0 → c ∈ out ∨ c ∈ queue

/-- Invariant inside the `for neighbor in graph[node]` loop, after the
occurrences in `done` have been decremented and those in `ns` are pending. -/
structure MidInv (deps : List (String × List String)) (node : String)
    (out done ns : List String) (deg : List (String × Int)) (queue : List String) :
    Prop where
  nodup : ((out ++ [node]) ++ queue).Nodup
  sub : ∀ c ∈ (out ++ [node]) ++ queue, c ∈ keysOf deps
  degkeys : deg.map Prod.fst = keysOf deps
  degval : ∀ c ∈ keysOf deps,
    omFind deg c
      = some (((depsList deps c).length : Int) - (outCount out (depsList deps c) : Int)
          - (done.count c : Int))
  queueGood : ∀ c ∈ queue, (∀ p ∈ depsList deps c, p ∈ out ++ [node]) ∧ ns.count c = 0
  outParents : ∀ c ∈ out ++ [node], ∀ p ∈ depsList deps c, p ∈ out
  outGood : RespectsDeps deps (out ++ [node])
  zeroin : ∀ c ∈ keysOf deps, omFind deg c = some 0 → c ∈ (out ++ [node]) ++ queue

theorem respects_append {deps : List (String × List String)} {out : List String}
    {node : String} (h : RespectsDeps deps out)
    (hp : ∀ p ∈ depsList deps node, p ∈ out) :
    RespectsDeps deps (out ++ [node]) := by
  intro k c hk p hpmem
  rcases Nat.lt_trichotomy k out.length with hlt | heq | hgt
  · rw [List.get?_append hlt] at hk
    obtain ⟨m, hm, hget⟩ := h k c hk p hpmem
    exact ⟨m, hm, by rw [List.get?_append (hm.trans hlt)]; exact hget⟩
  · have : (out ++ [node]).get? k = some node := by
      rw [heq, List.get?_append_right (Nat.le_refl _)]
      simp
    rw [hk] at this
    have hc : c = node := Option.some.inj this
    subst hc
    have hpout : p ∈ out := hp p hpmem
    obtain ⟨m, hget⟩ := List.mem_iff_get?.mp hpout
    have hmlt : m < out.length := by
      by_contra hge
      rw [List.get?_eq_none.mpr (Nat.le_of_not_lt hge)] at hget
      exact Option.noConfusion hget
    exact ⟨m, heq ▸ hmlt, by rw [List.get?_append hmlt]; exact hget⟩
  · exfalso
    have : (out ++ [node]).get? k = none := by
      rw [List.get?_eq_none]
      simpa using hgt
    rw [hk] at this
    exact Option.noConfusion this

theorem kahnInv_init (deps : List (String × List String))
    (hnd : (keysOf deps).Nodup) :
    KahnInv deps (degSpec deps)
      (((degSpec deps).filter (fun kv => kv.2 = 0)).map Prod.fst) [] := by
  have hdndeg : ((degSpec deps).map Prod.fst).Nodup := by
    rw [degSpec_map_fst]; exact hnd
  have hqsub : (((degSpec deps).filter (fun kv => kv.2 = 0)).map Prod.fst).Sublist
      ((degSpec deps).map Prod.fst) :=
    List.Sublist.map Prod.fst (List.filter_sublist _)
  have hfind0 : ∀ c ∈ ((degSpec deps).filter (fun kv => kv.2 = 0)).map Prod.fst,
      omFind (degSpec deps) c = some 0 := by
    intro c hc
    simp only [List.mem_map, List.mem_filter] at hc
    obtain ⟨kv, ⟨hkv, hz⟩, hfst⟩ := hc
    have := omFind_eq_some_of_mem hdndeg (hfst ▸ hkv : (c, kv.2) ∈ degSpec deps)
    rw [this]
    have : kv.2 = 0 := by simpa using hz
    rw [this]
  refine ⟨?_, ?_, degSpec_map_fst deps, ?_, ?_, ?_, ?_, ?_⟩
  · simpa using hqsub.nodup hdndeg
  · intro c hc
    simp only [List.nil_append] at hc
    exact degSpec_map_fst deps ▸ hqsub.subset hc
  · intro c hc
    have hsome : (omFind deps c).isSome := (omFind_isSome_iff deps c).mpr hc
    obtain ⟨ps, hps⟩ := Option.isSome_iff_exists.mp hsome
    rw [omFind_degSpec, hps]
    simp [depsList, hps, outCount_nil]
  · intro c hc p hp
    exfalso
    have h0 := hfind0 c hc
    rw [omFind_degSpec] at h0
    obtain ⟨ps, hps, hlen⟩ := Option.map_eq_some'.mp h0
    have hl : ps.length = 0 := by exact_mod_cast hlen
    rw [depsList, hps] at hp
    simp [List.eq_nil_of_length_eq_zero hl] at hp
  · intro c hc; simp at hc
  · intro k c hk; simp at hk
  · intro c hc h0
    right
    have := mem_of_omFind_eq_some h0
    exact List.mem_map_of_mem Prod.fst (List.mem_filter.mpr ⟨this, by simp⟩)

theorem nodup_append_singleton {x : String} {l : List String}
    (hx : x ∉ l) (hl : l.Nodup) : (l ++ [x]).Nodup := by
  simp [List.nodup_append, hx, hl]

theorem processNeighbors_mid (deps : List (String × List String))
    (hnd : (keysOf deps).Nodup) (node : String) (out : List String)
    (hnode : node ∉ out) :
    ∀ (ns done : List String) (deg : List (String × Int)) (queue : List String),
    done ++ ns = childrenSpec deps node →
    MidInv deps node out done ns deg queue →
    MidInv deps node out (done ++ ns) []
      (processNeighbors deg queue ns).1 (processNeighbors deg queue ns).2 := by
  intro ns
  induction ns with
  | nil =>
    intro done deg queue _ minv
    simpa [processNeighbors] using minv
  | cons nb ns2 ih =>
    intro done deg queue hbridge minv
    have hnbchild : nb ∈ childrenSpec deps node := by
      rw [← hbridge]
      exact List.mem_append_right _ (List.mem_cons_self _ _)
    have hnbkeys : nb ∈ keysOf deps := mem_keys_of_mem_childrenSpec hnbchild
    have hval := minv.degval nb hnbkeys
    have hget : omGetD deg nb 0
        = ((depsList deps nb).length : Int)
          - (outCount out (depsList deps nb) : Int) - (done.count nb : Int) := by
      rw [omGetD, hval]
      rfl
    have hcount_total : done.count nb + (ns2.count nb + 1)
        = (depsList deps nb).count node := by
      have h1 : (done ++ nb :: ns2).count nb = (childrenSpec deps node).count nb := by
        rw [hbridge]
      rw [count_childrenSpec hnd node nb] at h1
      rw [← h1, List.count_append, List.count_cons]
      simp
    have houtc : outCount (out ++ [node]) (depsList deps nb)
        = outCount out (depsList deps nb) + (depsList deps nb).count node :=
      outCount_append_single node hnode _
    have hocle : outCount (out ++ [node]) (depsList deps nb)
        ≤ (depsList deps nb).length := outCount_le_length _ _
    have hdegkeys2 : ∀ v : Int, (omSet deg nb v).map Prod.fst = keysOf deps := by
      intro v
      rw [omSet_map_fst deg nb v (minv.degkeys ▸ hnbkeys), minv.degkeys]
    have hdegval2 : ∀ v : Int,
        v = ((depsList deps nb).length : Int)
            - (outCount out (depsList deps nb) : Int) - ((done.count nb : Int) + 1) →
        ∀ c ∈ keysOf deps, omFind (omSet deg nb v) c
          = some (((depsList deps c).length : Int)
              - (outCount out (depsList deps c) : Int) - ((done ++ [nb]).count c : Int)) := by
      intro v hv c hc
      rw [omFind_omSet]
      by_cases e : nb = c
      · subst e
        rw [if_pos rfl, hv]
        have hcc : (done ++ [nb]).count nb = done.count nb + 1 := by
          rw [List.count_append]
          simp
        rw [hcc]
        push_cast
        rfl
      · rw [if_neg e, minv.degval c hc]
        have hcc : (done ++ [nb]).count c = done.count c := by
          rw [List.count_append, List.count_singleton', if_neg e, Nat.add_zero]
        rw [hcc]
    by_cases hpush : omGetD deg nb 0 - 1 = 0
    · -- the neighbour's in-degree reached zero: it is enqueued
      have harith : ((depsList deps nb).length : Int)
          = (outCount out (depsList deps nb) : Int) + (done.count nb : Int) + 1 := by
        omega
      have hns2 : ns2.count nb = 0 := by
        omega
      have hparents : ∀ p ∈ depsList deps nb, p ∈ out ++ [node] := by
        refine (outCount_eq_length_iff _ _).mp ?_
        omega
      have hnb_notA : nb ∉ out ++ [node] := by
        intro hmem
        have hall := minv.outParents nb hmem
        have := outCount_all_mem hall
        omega
      have hnb_notq : nb ∉ queue := by
        intro hmem
        have := (minv.queueGood nb hmem).2
        rw [List.count_cons] at this
        simp at this
      have minv2 : MidInv deps node out (done ++ [nb]) ns2
          (omSet deg nb (omGetD deg nb 0 - 1)) (queue ++ [nb]) := by
        refine ⟨?_, ?_, hdegkeys2 _, hdegval2 _ (by omega), ?_, minv.outParents, minv.outGood, ?_⟩
        · rw [← List.append_assoc]
          refine nodup_append_singleton ?_ minv.nodup
          intro hmem
          rcases List.mem_append.mp hmem with h | h
          · exact hnb_notA h
          · exact hnb_notq h
        · intro c hc
          rcases List.mem_append.mp hc with h | h
          · exact minv.sub c (List.mem_append_left _ h)
          · rcases List.mem_append.mp h with h2 | h2
            · exact minv.sub c (List.mem_append_right _ h2)
            · rw [List.mem_singleton.mp h2]
              exact hnbkeys
        · intro c hc
          rcases List.mem_append.mp hc with h | h
          · have hold := minv.queueGood c h
            refine ⟨hold.1, ?_⟩
            have := hold.2
            rw [List.count_cons] at this
            omega
          · rw [List.mem_singleton.mp h]
            exact ⟨hparents, hns2⟩
        · intro c hc h0
          rw [omFind_omSet] at h0
          by_cases e : nb = c
          · subst e
            exact List.mem_append_right _ (List.mem_append_right _ (List.mem_singleton.mpr rfl))
          · rw [if_neg e] at h0
            rcases List.mem_append.mp (minv.zeroin c hc h0) with h | h
            · exact List.mem_append_left _ h
            · exact List.mem_append_right _ (List.mem_append_left _ h)
      have hbridge2 : (done ++ [nb]) ++ ns2 = childrenSpec deps node := by
        rw [List.append_assoc]
        simpa using hbridge
      have := ih (done ++ [nb]) (omSet deg nb (omGetD deg nb 0 - 1)) (queue ++ [nb])
        hbridge2 minv2
      rw [List.append_assoc] at this
      simp only [List.singleton_append] at this
      simpa [processNeighbors, hpush] using this
    · -- the neighbour's in-degree stays nonzero
      have minv2 : MidInv deps node out (done ++ [nb]) ns2
          (omSet deg nb (omGetD deg nb 0 - 1)) queue := by
        refine ⟨?_, minv.sub, hdegkeys2 _, hdegval2 _ (by omega), ?_, minv.outParents, minv.outGood, ?_⟩
        · exact minv.nodup
        · intro c hc
          have hold := minv.queueGood c hc
          refine ⟨hold.1, ?_⟩
          have := hold.2
          rw [List.count_cons] at this
          omega
        · intro c hc h0
          rw [omFind_omSet] at h0
          by_cases e : nb = c
          · exfalso
            rw [if_pos e] at h0
            have : omGetD deg nb 0 - 1 = 0 := Option.some.inj h0
            exact hpush this
          · rw [if_neg e] at h0
            exact minv.zeroin c hc h0
      have hbridge2 : (done ++ [nb]) ++ ns2 = childrenSpec deps node := by
        rw [List.append_assoc]
        simpa using hbridge
      have := ih (done ++ [nb]) (omSet deg nb (omGetD deg nb 0 - 1)) queue
        hbridge2 minv2
      rw [List.append_assoc] at this
      simp only [List.singleton_append] at this
      simpa [processNeighbors, hpush] using this

theorem midInv_enter (deps : List (String × List String))
    (hnd : (keysOf deps).Nodup) {deg : List (String × Int)} {node : String}
    {rest out : List String} (inv : KahnInv deps deg (node :: rest) out) :
    MidInv deps node out [] (childrenSpec deps node) deg rest ∧ node ∉ out := by
  have hassoc : out ++ node :: rest = (out ++ [node]) ++ rest := by
    rw [List.append_assoc, List.singleton_append]
  have hnode_out : node ∉ out := by
    have hdisj := List.disjoint_of_nodup_append inv.nodup
    intro hmem
    exact hdisj hmem (List.mem_cons_self _ _)
  have hnodeq : ∀ p ∈ depsList deps node, p ∈ out :=
    inv.queueGood node (List.mem_cons_self _ _)
  refine ⟨⟨?_, ?_, inv.degkeys, ?_, ?_, ?_, ?_, ?_⟩, hnode_out⟩
  · rw [← hassoc]
    exact inv.nodup
  · intro c hc
    rw [← hassoc] at hc
    exact inv.sub c hc
  · intro c hc
    rw [inv.degval c hc]
    simp
  · intro c hc
    have hparents := inv.queueGood c (List.mem_cons_of_mem _ hc)
    refine ⟨fun p hp => List.mem_append_left _ (hparents p hp), ?_⟩
    rw [count_childrenSpec hnd node c, List.count_eq_zero]
    intro hmem
    exact hnode_out (hparents node hmem)
  · intro c hc
    rcases List.mem_append.mp hc with h | h
    · exact fun p hp => inv.outParents c h p hp
    · rw [List.mem_singleton.mp h]
      exact hnodeq
  · exact respects_append inv.outGood hnodeq
  · intro c hc h0
    rcases inv.zeroin c hc h0 with h | h
    · exact List.mem_append_left _ (List.mem_append_left _ h)
    · rcases List.mem_cons.mp h with h2 | h2
      · rw [h2]
        exact List.mem_append_left _ (List.mem_append_right _ (List.mem_singleton.mpr rfl))
      · exact List.mem_append_right _ h2

theorem midInv_exit (deps : List (String × List String))
    (hnd : (keysOf deps).Nodup) {node : String} {out : List String}
    {deg : List (String × Int)} {queue : List String} (hnode : node ∉ out)
    (minv : MidInv deps node out (childrenSpec deps node) [] deg queue) :
    KahnInv deps deg queue (out ++ [node]) := by
  refine ⟨minv.nodup, minv.sub, minv.degkeys, ?_, ?_, ?_, minv.outGood, ?_⟩
  · intro c hc
    rw [minv.degval c hc]
    congr 1
    rw [outCount_append_single node hnode, count_childrenSpec hnd node c]
    push_cast
    ring
  · intro c hc
    exact (minv.queueGood c hc).1
  · intro c hc p hp
    exact List.mem_append_left _ (minv.outParents c hc p hp)
  · intro c hc h0
    exact List.mem_append.mp (minv.zeroin c hc h0)

theorem kahnLoop_inv (deps : List (String × List String))
    (hnd : (keysOf deps).Nodup) :
    ∀ (fuel : Nat) (deg : List (String × Int)) (queue out : List String),
    KahnInv deps deg queue out →
    KahnInv deps (kahnLoop (buildGraphDeg deps).1 fuel deg queue out).2.1
      (kahnLoop (buildGraphDeg deps).1 fuel deg queue out).2.2
      (kahnLoop (buildGraphDeg deps).1 fuel deg queue out).1 ∧
    ((kahnLoop (buildGraphDeg deps).1 fuel deg queue out).2.2 = [] ∨
      (kahnLoop (buildGraphDeg deps).1 fuel deg queue out).1.length
        = out.length + fuel) := by
  intro fuel
  induction fuel with
  | zero =>
    intro deg queue out inv
    exact ⟨inv, Or.inr rfl⟩
  | succ fuel ih =>
    intro deg queue out inv
    cases queue with
    | nil =>
      exact ⟨inv, Or.inl rfl⟩
    | cons node rest =>
      obtain ⟨minv, hnode⟩ := midInv_enter deps hnd inv
      have hg : omGetD (buildGraphDeg deps).1 node [] = childrenSpec deps node :=
        buildGraphDeg_graph deps hnd node
      have hmid := processNeighbors_mid deps hnd node out hnode
        (childrenSpec deps node) [] deg rest (by simp) minv
      simp only [List.nil_append] at hmid
      have hexit := midInv_exit deps hnd hnode hmid
      have hloop :
          kahnLoop (buildGraphDeg deps).1 (fuel + 1) deg (node :: rest) out
            = kahnLoop (buildGraphDeg deps).1 fuel
                (processNeighbors deg rest (childrenSpec deps node)).1
                (processNeighbors deg rest (childrenSpec deps node)).2
                (out ++ [node]) := by
        simp only [kahnLoop, hg]
      rw [hloop]
      obtain ⟨hinv2, hlen⟩ := ih _ _ _ hexit
      refine ⟨hinv2, ?_⟩
      rcases hlen with h | h
      · exact Or.inl h
      · right
        rw [h, List.length_append]
        simp
        omega

/-! ### Main results about `topological_sort` -/

/-- The state of Kahn's loop at exit, starting from the built maps. -/
def kahnRes (deps : List (String × List String)) :
    List String × List (String × Int) × List String :=
  kahnLoop (buildGraphDeg deps).1 (degSpec deps).length (degSpec deps)
    (((degSpec deps).filter (fun kv => kv.2 = 0)).map Prod.fst) []

theorem topological_sort_unfold (deps : List (String × List String))
    (hnd : (keysOf deps).Nodup) :
    topological_sort deps
      = if (kahnRes deps).1.length = (degSpec deps).length
        then .ok (kahnRes deps).1 else .error cycleMsg := by
  simp only [topological_sort, kahnRes, buildGraphDeg_deg deps hnd]

theorem kahn_final (deps : List (String × List String))
    (hnd : (keysOf deps).Nodup) :
    KahnInv deps (kahnRes deps).2.1 (kahnRes deps).2.2 (kahnRes deps).1 ∧
    ((kahnRes deps).2.2 = [] ∨ (kahnRes deps).1.length = (degSpec deps).length) := by
  have := kahnLoop_inv deps hnd (degSpec deps).length (degSpec deps)
    (((degSpec deps).filter (fun kv => kv.2 = 0)).map Prod.fst) []
    (kahnInv_init deps hnd)
  simpa [kahnRes] using this

theorem length_degSpec (deps : List (String × List String)) :
    (degSpec deps).length = (keysOf deps).length := by
  simp [degSpec, keysOf]

theorem topological_sort_sound (deps : List (String × List String))
    (hnd : (keysOf deps).Nodup) {l : List String}
    (h : topological_sort deps = .ok l) :
    l.Perm (keysOf deps) ∧ RespectsDeps deps l := by
  rw [topological_sort_unfold deps hnd] at h
  by_cases hc : (kahnRes deps).1.length = (degSpec deps).length
  · rw [if_pos hc] at h
    have hl : l = (kahnRes deps).1 := (Except.ok.inj h).symm
    subst hl
    obtain ⟨inv, _⟩ := kahn_final deps hnd
    have hnodup : (kahnRes deps).1.Nodup := (List.nodup_append.mp inv.nodup).1
    have hsub : (kahnRes deps).1 ⊆ keysOf deps :=
      fun c hcm => inv.sub c (List.mem_append_left _ hcm)
    have hlen : (keysOf deps).length ≤ (kahnRes deps).1.length := by
      rw [hc, length_degSpec]
    exact ⟨(List.subperm_of_subset hnodup hsub).perm_of_length_le hlen, inv.outGood⟩
  · rw [if_neg hc] at h
    exact absurd h (by simp)

theorem list_exists_rank_min (rk : String → Nat) :
    ∀ (L : List String), L ≠ [] → ∃ c ∈ L, ∀ d ∈ L, rk c ≤ rk d := by
  intro L
  induction L with
  | nil => intro h; exact absurd rfl h
  | cons a tl ih =>
    intro _
    by_cases htl : tl = []
    · subst htl
      exact ⟨a, List.mem_cons_self _ _, by simp⟩
    · obtain ⟨c, hcm, hcmin⟩ := ih htl
      by_cases hle : rk a ≤ rk c
      · refine ⟨a, List.mem_cons_self _ _, ?_⟩
        intro d hd
        rcases List.mem_cons.mp hd with h | h
        · rw [h]
        · exact hle.trans (hcmin d h)
      · refine ⟨c, List.mem_cons_of_mem _ hcm, ?_⟩
        intro d hd
        rcases List.mem_cons.mp hd with h | h
        · rw [h]
          exact Nat.le_of_lt (Nat.lt_of_not_le hle)
        · exact hcmin d h

theorem topological_sort_complete (deps : List (String × List String))
    (hnd : (keysOf deps).Nodup) (hcl : ClosedDeps deps)
    (hac : RankAcyclic deps) :
    ∃ l, topological_sort deps = .ok l := by
  rw [topological_sort_unfold deps hnd]
  by_cases hc : (kahnRes deps).1.length = (degSpec deps).length
  · exact ⟨(kahnRes deps).1, by rw [if_pos hc]⟩
  · exfalso
    obtain ⟨inv, hq⟩ := kahn_final deps hnd
    have hqe : (kahnRes deps).2.2 = [] := by
      rcases hq with h | h
      · exact h
      · exact absurd h hc
    set out := (kahnRes deps).1 with hout
    have hnodup : out.Nodup := (List.nodup_append.mp inv.nodup).1
    have hsub : out ⊆ keysOf deps :=
      fun c hcm => inv.sub c (List.mem_append_left _ hcm)
    -- a key missing from the output
    have hlt : out.length < (keysOf deps).length := by
      have hle := (List.subperm_of_subset hnodup hsub).length_le
      rw [length_degSpec] at hc
      omega
    have hmiss : ∃ k ∈ keysOf deps, k ∉ out := by
      by_contra hall
      push_neg at hall
      have : keysOf deps ⊆ out := fun k hk => hall k hk
      have := (List.subperm_of_subset hnd this).length_le
      omega
    -- the missing keys; each has a missing parent, contradicting the ranking
    obtain ⟨r, hr⟩ := hac
    obtain ⟨k0, hk0keys, hk0out⟩ := hmiss
    set L := (keysOf deps).filter (fun k => decide (k ∉ out)) with hL
    have hLne : L ≠ [] := by
      intro he
      have : k0 ∈ L := by
        rw [hL]
        exact List.mem_filter.mpr ⟨hk0keys, by simpa using hk0out⟩
      rw [he] at this
      simp at this
    obtain ⟨cm, hcmL, hcmmin⟩ := list_exists_rank_min r L hLne
    have hcmkeys : cm ∈ keysOf deps := (List.mem_filter.mp hcmL).1
    have hcmout : cm ∉ out := by
      have := (List.mem_filter.mp hcmL).2
      simpa using this
    -- cm has a prerequisite not yet emitted
    have hpar : ∃ p ∈ depsList deps cm, p ∉ out := by
      by_contra hall
      push_neg at hall
      have hoc : outCount out (depsList deps cm) = (depsList deps cm).length :=
        outCount_all_mem hall
      have h0 := inv.degval cm hcmkeys
      rw [hoc] at h0
      have : omFind (kahnRes deps).2.1 cm = some 0 := by
        rw [h0]
        congr 1
        ring
      rcases inv.zeroin cm hcmkeys this with h | h
      · exact hcmout h
      · rw [hqe] at h
        simp at h
    obtain ⟨p, hpmem, hpout⟩ := hpar
    -- p is a key (closedness) and ranks strictly below cm (ranking)
    have hcmentry : (cm, depsList deps cm) ∈ deps := by
      have hsome : (omFind deps cm).isSome := (omFind_isSome_iff deps cm).mpr hcmkeys
      obtain ⟨ps, hps⟩ := Option.isSome_iff_exists.mp hsome
      have : depsList deps cm = ps := by rw [depsList, hps]; rfl
      rw [this]
      exact mem_of_omFind_eq_some hps
    have hpkeys : p ∈ keysOf deps := hcl _ hcmentry p hpmem
    have hpL : p ∈ L := List.mem_filter.mpr ⟨hpkeys, by simpa using hpout⟩
    have hrank : r p < r cm := hr _ hcmentry p hpmem
    exact absurd (hcmmin p hpL) (Nat.not_le_of_lt hrank)

theorem get?_indexOf_of_mem {l : List String} {a : String} (h : a ∈ l) :
    l.get? (l.indexOf a) = some a := by
  have hlt := List.indexOf_lt_length.mpr h
  rw [List.get?_eq_getElem?, List.getElem?_eq_getElem hlt]
  rw [List.getElem_indexOf]

theorem indexOf_le_of_get? {l : List String} {a : String} :
    ∀ {m : Nat}, l.get? m = some a → l.indexOf a ≤ m := by
  induction l with
  | nil => intro m h; simp at h
  | cons hd tl ih =>
    intro m h
    cases m with
    | zero =>
      have : hd = a := Option.some.inj h
      rw [this, List.indexOf_cons_self]
    | succ m2 =>
      have htl : tl.get? m2 = some a := h
      by_cases e : hd = a
      · rw [List.indexOf_cons_eq _ e]
        omega
      · rw [List.indexOf_cons_ne _ e]
        have := ih htl
        omega

theorem topological_sort_cycle_error (deps : List (String × List String))
    (hnd : (keysOf deps).Nodup) (hcy : HasCycle deps) :
    topological_sort deps = .error cycleMsg := by
  rw [topological_sort_unfold deps hnd]
  by_cases hc : (kahnRes deps).1.length = (degSpec deps).length
  · exfalso
    have hok : topological_sort deps = .ok (kahnRes deps).1 := by
      rw [topological_sort_unfold deps hnd, if_pos hc]
    obtain ⟨hperm, hresp⟩ := topological_sort_sound deps hnd hok
    obtain ⟨f, n, hn, hfn, hchain⟩ := hcy
    have hkeys : ∀ i, i < n → f i ∈ keysOf deps := by
      intro i hi
      have hdep := hchain i hi
      rw [depOn, depsList] at hdep
      cases hfind : omFind deps (f i) with
      | none => rw [hfind] at hdep; simp at hdep
      | some ps => exact key_mem_of_omFind_eq_some hfind
    have hmem : ∀ i, i ≤ n → f i ∈ (kahnRes deps).1 := by
      intro i hi
      rcases Nat.lt_or_ge i n with h | h
      · exact hperm.mem_iff.mpr (hkeys i h)
      · have he : i = n := Nat.le_antisymm hi h
        rw [he, hfn]
        exact hperm.mem_iff.mpr (hkeys 0 hn)
    have hstep : ∀ i, i < n →
        (kahnRes deps).1.indexOf (f (i + 1)) < (kahnRes deps).1.indexOf (f i) := by
      intro i hi
      have hfi : f i ∈ (kahnRes deps).1 := hmem i (Nat.le_of_lt hi)
      have hget : (kahnRes deps).1.get? ((kahnRes deps).1.indexOf (f i)) = some (f i) :=
        get?_indexOf_of_mem hfi
      have hdep := hchain i hi
      rw [depOn] at hdep
      obtain ⟨m, hm, hgetm⟩ := hresp _ _ hget _ hdep
      have := indexOf_le_of_get? hgetm
      omega
    have hdesc : ∀ i, i ≤ n →
        (kahnRes deps).1.indexOf (f i) + i ≤ (kahnRes deps).1.indexOf (f 0) := by
      intro i
      induction i with
      | zero => intro _; omega
      | succ j ihj =>
        intro hj
        have h1 := hstep j (by omega)
        have h2 := ihj (by omega)
        omega
    have hfin := hdesc n (Nat.le_refl n)
    rw [hfn] at hfin
    omega
  · rw [if_neg hc]

/-! ### Claim theorems for the dependency sorter -/

/-- C1, counterexample: the dependency mapping `{A: [B]}` is acyclic in the
claim's sense (B is referenced but not a key, so the claim counts it as a
root and expects the sort to return both nodes), yet `topological_sort`
raises the cycle error: nodes that appear only as prerequisites are never
added to the in-degree map, so `A` is never emitted and the length check
fails. -/
theorem c1_counterexample :
    RankAcyclic [("A", ["B"])] ∧
    topological_sort [("A", ["B"])] = .error cycleMsg :=
  ⟨⟨fun s => if s = "B" then 0 else 1, by decide⟩, rfl⟩

/-- C1 (amended): for every acyclic dependency mapping in which every
referenced name is itself a key, `topological_sort` returns a permutation of
the keys in which every node appears after all of its prerequisites (hence
each node exactly once, and the length equals the number of distinct
nodes); and the spec's example sorts as
`{A:[B,C], B:[D], C:[D], D:[]} ↦ [D, B, C, A]`. -/
theorem c1_topological_sort_amended :
    (∀ deps : List (String × List String),
      (keysOf deps).Nodup → ClosedDeps deps → RankAcyclic deps →
      ∃ l, topological_sort deps = .ok l ∧ l.Perm (keysOf deps) ∧
        RespectsDeps deps l) ∧
    topological_sort [("A", ["B", "C"]), ("B", ["D"]), ("C", ["D"]), ("D", [])]
      = .ok ["D", "B", "C", "A"] := by
  constructor
  · intro deps h1 h2 h3
    obtain ⟨l, hl⟩ := topological_sort_complete deps h1 h2 h3
    obtain ⟨hperm, hresp⟩ := topological_sort_sound deps h1 hl
    exact ⟨l, hl, hperm, hresp⟩
  · rfl

/-- C1 witness: the amended claim applied to the spec's example `S3`. -/
theorem c1_topological_sort_amended_witness :
    ∃ l, topological_sort [("A", ["B", "C"]), ("B", ["D"]), ("C", ["D"]), ("D", [])]
        = .ok l ∧
      l.Perm (keysOf [("A", ["B", "C"]), ("B", ["D"]), ("C", ["D"]), ("D", [])]) ∧
      RespectsDeps [("A", ["B", "C"]), ("B", ["D"]), ("C", ["D"]), ("D", [])] l :=
  c1_topological_sort_amended.1 _ (by decide) (by unfold ClosedDeps; decide)
    ⟨fun s => if s = "D" then 0 else if s = "A" then 2 else 1, by decide⟩

/-- C4: for every dependency mapping (with distinct keys, as Python dict keys
are) whose graph contains a directed cycle, `topological_sort` raises the
`RuntimeError` with the cycle message — it never returns a partial order —
and the emitted output really is shorter than the number of distinct keys,
which is exactly the length test the code uses. -/
theorem c4_cycle_detected (deps : List (String × List String))
    (hnd : (keysOf deps).Nodup) (hcy : HasCycle deps) :
    topological_sort deps = .error cycleMsg ∧
    (kahnRes deps).1.length < (keysOf deps).length := by
  have herr := topological_sort_cycle_error deps hnd hcy
  refine ⟨herr, ?_⟩
  rw [topological_sort_unfold deps hnd] at herr
  by_cases hc : (kahnRes deps).1.length = (degSpec deps).length
  · rw [if_pos hc] at herr
    exact absurd herr (by simp)
  · obtain ⟨inv, _⟩ := kahn_final deps hnd
    have hnodup : (kahnRes deps).1.Nodup := (List.nodup_append.mp inv.nodup).1
    have hsub : (kahnRes deps).1 ⊆ keysOf deps :=
      fun c hcm => inv.sub c (List.mem_append_left _ hcm)
    have hle := (List.subperm_of_subset hnodup hsub).length_le
    rw [length_degSpec] at hc
    omega

/-- C4 witness: the two-node cycle `{A: [B], B: [A]}` is rejected. -/
theorem c4_cycle_detected_witness :
    topological_sort [("A", ["B"]), ("B", ["A"])] = .error cycleMsg ∧
    (kahnRes [("A", ["B"]), ("B", ["A"])]).1.length
      < (keysOf [("A", ["B"]), ("B", ["A"])]).length := by
  have hcy : HasCycle [("A", ["B"]), ("B", ["A"])] := by
    refine ⟨fun i => if i % 2 = 0 then "A" else "B", 2, by omega, by norm_num, ?_⟩
    intro i hi
    interval_cases i
    · simp [depOn, depsList, omFind]
    · simp [depOn, depsList, omFind]
  exact c4_cycle_detected _ (by decide) hcy

/-! ## `format_value` / `to_sql_values` (src/utils/to_sql_values.py)

Native Python row values are modelled by `PyValue`; the `isinstance`
dispatch chain of `format_value` becomes a match on disjoint
constructors (the chain's ordering already resolves Python's subtype
overlaps — `bool` before `int`, `datetime` before `date` — in the same
way).  `datetime.isoformat`, `bytes.hex`, `str(UUID)` and `json.dumps`
(with its default separators and `ensure_ascii=True` escaping) are
modelled directly from their documented behaviour. -/

/-- The single-quote character. -/
def sq : Char := Char.ofNat 39

/-- The double-quote character. -/
def dq : Char := Char.ofNat 34

/-- Python `str.replace` for a single-character pattern. -/
def pyReplaceChar (pat : Char) (rep : List Char) : List Char → List Char
  | [] => []
  | c :: rest =>
    if c = pat then rep ++ pyReplaceChar pat rep rest
    else c :: pyReplaceChar pat rep rest

/-- `val.replace("'", "''")`. -/
def escapeQuotes (s : String) : String :=
  String.mk (pyReplaceChar sq [sq, sq] s.data)

/-- Zero-padded two-digit decimal field. -/
def pad2 (n : Nat) : String :=
  if n < 10 then "0" ++ toString n else toString n

/-- Zero-padded four-digit year field. -/
def pad4 (n : Nat) : String :=
  if n < 10 then "000" ++ toString n
  else if n < 100 then "00" ++ toString n
  else if n < 1000 then "0" ++ toString n
  else toString n

/-- Lower-case hex digit. -/
def hexDigit (n : Nat) : Char :=
  if n < 10 then Char.ofNat (48 + n) else Char.ofNat (87 + n)

/-- Lower-case hex of one byte. -/
def byteHex (b : Nat) : List Char :=
  [hexDigit (b / 16 % 16), hexDigit (b % 16)]

/-- `bytes.hex()`: lower-case hex of a byte string. -/
def bytesHex (bs : List Nat) : String :=
  String.mk ((bs.map byteHex).flatten)

/-- `str(uuid.UUID)`: canonical hyphenated lower-case form of 16 bytes. -/
def uuidStr (bs : List Nat) : String :=
  bytesHex (bs.take 4) ++ "-" ++ bytesHex ((bs.drop 4).take 2) ++ "-"
    ++ bytesHex ((bs.drop 6).take 2) ++ "-" ++ bytesHex ((bs.drop 8).take 2)
    ++ "-" ++ bytesHex (bs.drop 10)

/-- JSON values as `json.dumps` receives them. -/
inductive PyJson where
  | null
  | bool (b : Bool)
  | num (n : Int)
  | str (s : String)
  | arr (elems : List PyJson)
  | obj (fields : List (String × PyJson))

/-- Four lower-case hex digits. -/
def hex4 (n : Nat) : List Char :=
  [hexDigit (n / 4096 % 16), hexDigit (n / 256 % 16), hexDigit (n / 16 % 16),
   hexDigit (n % 16)]

/-- `json.dumps` string-character escaping with the default
`ensure_ascii=True`: `"` and `\` get a backslash, the common control
characters use their short escapes, all other characters outside
`0x20..0x7e` become `\uXXXX` (with surrogate pairs above the BMP). -/
def jsonEscapeChar (c : Char) : List Char :=
  let n := c.toNat
  let bs := Char.ofNat 92
  if n = 34 then [bs, dq]
  else if n = 92 then [bs, bs]
  else if n = 8 then [bs, Char.ofNat 98]
  else if n = 9 then [bs, Char.ofNat 116]
  else if n = 10 then [bs, Char.ofNat 110]
  else if n = 12 then [bs, Char.ofNat 102]
  else if n = 13 then [bs, Char.ofNat 114]
  else if 32 ≤ n ∧ n ≤ 126 then [c]
  else if n ≤ 65535 then bs :: Char.ofNat 117 :: hex4 n
  else
    bs :: Char.ofNat 117 :: hex4 (55296 + (n - 65536) / 1024)
      ++ bs :: Char.ofNat 117 :: hex4 (56320 + (n - 65536) % 1024)

/-- A JSON string literal as `json.dumps` emits it. -/
def jsonQuote (s : String) : String :=
  String.mk (dq :: (s.data.map jsonEscapeChar).flatten ++ [dq])

mutual

/-- `json.dumps` with the default separators `', '` and `': '`. -/
def jsonDumps : PyJson → String
  | .null => "null"
  | .bool true => "true"
  | .bool false => "false"
  | .num n => toString n
  | .str s => jsonQuote s
  | .arr es => "[" ++ jsonDumpsList es ++ "]"
  | .obj fs => "\x7b" ++ jsonDumpsFields fs ++ "\x7d"

/-- Comma-joined array elements. -/
def jsonDumpsList : List PyJson → String
  | [] => ""
  | [e] => jsonDumps e
  | e :: rest => jsonDumps e ++ ", " ++ jsonDumpsList rest

/-- Comma-joined object fields. -/
def jsonDumpsFields : List (String × PyJson) → String
  | [] => ""
  | [(k, v)] => jsonQuote k ++ ": " ++ jsonDumps v
  | (k, v) :: rest => jsonQuote k ++ ": " ++ jsonDumps v ++ ", " ++ jsonDumpsFields rest

end

/-- Native Python values as they arrive from the MySQL driver. -/
inductive PyValue where
  | none
  | bool (b : Bool)
  | int (n : Int)
  | datetime (y mo d h mi s : Nat)
  | date (y mo d : Nat)
  | time (h mi s : Nat)
  | bytes (bs : List Nat)
  | uuid (bs : List Nat)
  | json (j : PyJson)
  | text (s : String)

/-- `format_value(val)`: the type-dispatch table of src/utils/to_sql_values.py. -/
def format_value : PyValue → String
  | .none => "NULL"
  | .bool b => if b then "1" else "0"
  | .int n => toString n
  | .datetime y mo d h mi s =>
    "'" ++ pad4 y ++ "-" ++ pad2 mo ++ "-" ++ pad2 d ++ " "
      ++ pad2 h ++ ":" ++ pad2 mi ++ ":" ++ pad2 s ++ "'"
  | .time h mi s => "'" ++ pad2 h ++ ":" ++ pad2 mi ++ ":" ++ pad2 s ++ "'"
  | .date y mo d => "'" ++ pad4 y ++ "-" ++ pad2 mo ++ "-" ++ pad2 d ++ "'"
  | .bytes bs => "X'" ++ bytesHex bs ++ "'"
  | .uuid bs => "'" ++ uuidStr bs ++ "'"
  | .json j => "'" ++ escapeQuotes (jsonDumps j) ++ "'"
  | .text s => "'" ++ escapeQuotes s ++ "'"

/-- `to_sql_values(row)`: comma-separated formatted values. -/
def to_sql_values (row : List PyValue) : String :=
  String.intercalate ", " (row.map format_value)

/-- Claim-side single-quote doubling, by direct character recursion. -/
def escSpec : List Char → List Char
  | [] => []
  | c :: rest => if c = sq then sq :: sq :: escSpec rest else c :: escSpec rest

theorem pyReplaceChar_sq (l : List Char) :
    pyReplaceChar sq [sq, sq] l = escSpec l := by
  induction l with
  | nil => rfl
  | cons c rest ih =>
    by_cases e : c = sq <;> simp [pyReplaceChar, escSpec, e, ih]

theorem escSpec_count_sq (l : List Char) :
    (escSpec l).count sq = 2 * l.count sq := by
  induction l with
  | nil => rfl
  | cons c rest ih =>
    by_cases e : c = sq
    · subst e
      simp [escSpec, List.count_cons, ih]
      ring
    · have hne : (c == sq) = false := beq_eq_false_iff_ne.mpr e
      simp [escSpec, e, List.count_cons, hne, ih]

theorem escSpec_count_other (l : List Char) (c : Char) (h : c ≠ sq) :
    (escSpec l).count c = l.count c := by
  induction l with
  | nil => rfl
  | cons a rest ih =>
    by_cases e : a = sq
    · subst e
      have hne : (c == sq) = false := beq_eq_false_iff_ne.mpr h
      have hne2 : ¬ sq = c := fun e2 => h e2.symm
      simp [escSpec, List.count_cons, hne, hne2, ih]
    · simp [escSpec, e, List.count_cons, ih]

/-- C6: the SQL value encoder emits the comma-separated literals of the
type-dispatch table — the spec's example row
`(None, True, 123, datetime(2023,10,1,12,30,45), UUID('12345678-…'))`
encodes to exactly
`NULL, 1, 123, '2023-10-01 12:30:45', '12345678-1234-5678-1234-567812345678'`;
text and JSON-encoded structured values are quoted with every embedded
single quote doubled (`O'Reilly ↦ 'O''Reilly'`), double quotes are left
untouched by that escaping step, and byte strings become
`X'<lowercase-hex>'`. -/
theorem c6_to_sql_values :
    to_sql_values [.none, .bool true, .int 123, .datetime 2023 10 1 12 30 45,
        .uuid [18, 52, 86, 120, 18, 52, 86, 120, 18, 52, 86, 120, 18, 52, 86, 120]]
      = "NULL, 1, 123, '2023-10-01 12:30:45', '12345678-1234-5678-1234-567812345678'" ∧
    (∀ s : String, format_value (.text s) = "'" ++ String.mk (escSpec s.data) ++ "'") ∧
    (∀ j : PyJson, format_value (.json j)
      = "'" ++ String.mk (escSpec (jsonDumps j).data) ++ "'") ∧
    (∀ l : List Char, (escSpec l).count sq = 2 * l.count sq) ∧
    (∀ l : List Char, (escSpec l).count dq = l.count dq) ∧
    format_value (.text "O'Reilly") = "'O''Reilly'" ∧
    (∀ bs : List Nat, format_value (.bytes bs) = "X'" ++ bytesHex bs ++ "'") := by
  refine ⟨by rfl, ?_, ?_, escSpec_count_sq, ?_, by rfl, fun bs => rfl⟩
  · intro s
    rw [format_value, escapeQuotes, pyReplaceChar_sq]
  · intro j
    rw [format_value, escapeQuotes, pyReplaceChar_sq]
  · intro l
    exact escSpec_count_other l dq (by decide)

/-! ## `MySQLDatabase.create_events_statements` (src/databases/mysql_database.py) -/

/-- Python `\w` word characters (the ASCII range, which is what SQL
identifiers and keywords use). -/
def isWordChar (c : Char) : Bool := c.isAlphanum || c = Char.ofNat 95

/-- A word boundary follows: end of text or a non-word character. -/
def boundaryAfter : List Char → Bool
  | [] => true
  | c :: _ => !isWordChar c

/-- `re.sub(r'\bENABLE\b', 'DISABLE', s, count=1)`: replace the first
word-bounded occurrence of `ENABLE`; `prev` records whether the previous
character was a word character. -/
def replaceFirstEnableAux : Bool → List Char → List Char
  | _, [] => []
  | prev, c :: rest =>
    if !prev && "ENABLE".data.isPrefixOf (c :: rest)
        && boundaryAfter ((c :: rest).drop 6)
    then "DISABLE".data ++ (c :: rest).drop 6
    else c :: replaceFirstEnableAux (isWordChar c) rest

/-- The `re.sub` call of `create_events_statements`. -/
def replace_enable_first (s : String) : String :=
  String.mk (replaceFirstEnableAux false s.data)

/-- Python `str.capitalize()`: first character upper-cased, the rest
lower-cased. -/
def pyCapitalize (s : String) : String :=
  match s.data with
  | [] => ""
  | c :: rest => String.mk (c.toUpper :: rest.map Char.toLower)

/-- One `SHOW EVENTS` row: name (`row[1]`), status (`row[6]`) and the
`SHOW CREATE EVENT` statement (`fetchone()[3]`). -/
structure MySQLEvent where
  name : String
  status : String
  createStmt : String
  deriving DecidableEq

/-- The per-event emission of `create_events_statements`. -/
def eventBlock (ev : MySQLEvent) : String :=
  "-- Create " ++ pyCapitalize ev.name ++ " Event\nDELIMITER ;;\n"
    ++ replace_enable_first ev.createStmt ++ ";;\nDELIMITER ;"

/-- `MySQLDatabase.create_events_statements(cursor)`, over the enumerated
events: raises when there are none, otherwise emits each CREATE (with its
first `ENABLE` disabled) and a re-enable trailer when any event was
originally enabled. -/
def create_events_statements (events : List MySQLEvent) : Except String String :=
  if events = [] then .error "No events found in the database."
  else
    let pair := events.foldl
      (fun (acc : List String × List String) ev =>
        (acc.1 ++ [eventBlock ev],
         if ev.status = "ENABLED" then acc.2 ++ [ev.name] else acc.2))
      ([], [])
    let stmts :=
      if pair.2 ≠ [] then
        pair.1 ++ ["-- Re-enable originally enabled events"]
          ++ pair.2.map (fun n => "ALTER EVENT `" ++ n ++ "` ENABLE;")
      else pair.1
    .ok (if stmts ≠ [] then String.intercalate "\n\n" stmts ++ "\n\n" else "")

/-- Claim-side trailer: the re-enable section, one `ALTER EVENT` per
originally enabled event, absent when none was enabled. -/
def eventsTrailer (events : List MySQLEvent) : List String :=
  let en := (events.filter (fun ev => ev.status = "ENABLED")).map MySQLEvent.name
  if en = [] then []
  else "-- Re-enable originally enabled events"
    :: en.map (fun n => "ALTER EVENT `" ++ n ++ "` ENABLE;")

theorem events_fold_spec (events : List MySQLEvent) :
    ∀ (a b : List String),
    events.foldl
      (fun (acc : List String × List String) ev =>
        (acc.1 ++ [eventBlock ev],
         if ev.status = "ENABLED" then acc.2 ++ [ev.name] else acc.2))
      (a, b)
      = (a ++ events.map eventBlock,
         b ++ (events.filter (fun ev => ev.status = "ENABLED")).map MySQLEvent.name) := by
  induction events with
  | nil => intro a b; simp
  | cons ev rest ih =>
    intro a b
    rw [List.foldl_cons]
    by_cases e : ev.status = "ENABLED"
    · rw [ih]
      simp [e, List.filter_cons]
    · rw [ih]
      simp only [e, if_false, List.filter_cons]
      have : (decide (ev.status = "ENABLED")) = false := by simpa using e
      simp [this]

/-- C7: for every nonempty set of database events, the extractor emits each
event's CREATE statement (wrapped in the delimiter shift) with its first
word-bounded `ENABLE` keyword replaced by `DISABLE`, and after all event
CREATEs a trailer containing exactly one `ALTER EVENT `name` ENABLE;` per
event whose status was originally `ENABLED` — and no trailer at all when
none was; only the first `ENABLE` is replaced, and `ENABLED` is not a
match for the word-bounded pattern. -/
theorem c7_create_events_statements :
    (∀ events : List MySQLEvent, events ≠ [] →
      create_events_statements events
        = .ok (String.intercalate "\n\n"
            (events.map eventBlock ++ eventsTrailer events) ++ "\n\n")) ∧
    replace_enable_first "A ENABLE B ENABLE C" = "A DISABLE B ENABLE C" ∧
    replace_enable_first "KEEP ENABLED ENABLE NOW" = "KEEP ENABLED DISABLE NOW" := by
  refine ⟨?_, by rfl, by rfl⟩
  intro events hne
  have hmapne : events.map eventBlock ≠ [] := by
    simpa using hne
  have hfold := events_fold_spec events [] []
  simp only [List.nil_append] at hfold
  simp only [create_events_statements, if_neg hne, hfold, eventsTrailer]
  by_cases he : (events.filter (fun ev => ev.status = "ENABLED")).map MySQLEvent.name = []
  · simp [he, hmapne]
  · simp only [he, if_neg, ite_not]
    simp [he, hmapne, List.append_assoc]

/-- A sample two-event enumeration: one originally enabled, one disabled. -/
def c7SampleEvents : List MySQLEvent :=
  [⟨"ev1", "ENABLED", "CREATE EVENT ev1 ON SCHEDULE EVERY 1 DAY ENABLE DO SELECT 1"⟩,
   ⟨"ev2", "DISABLED", "CREATE EVENT ev2 ON SCHEDULE EVERY 1 DAY DISABLE ON SLAVE DO SELECT 2"⟩]

/-- C7 witness: the events claim applied to a concrete two-event database. -/
theorem c7_create_events_statements_witness :
    create_events_statements c7SampleEvents
      = .ok (String.intercalate "\n\n"
          (c7SampleEvents.map eventBlock ++ eventsTrailer c7SampleEvents) ++ "\n\n") :=
  c7_create_events_statements.1 c7SampleEvents (by decide)

/-! ## `MySQLDatabase` extraction and `backup` (src/databases/mysql_database.py)

The introspected database is modelled by `MySQLState`; each cursor query
becomes a lookup in it.  Python's `try/except Exception: raise
RuntimeError(f"…: {e}")` re-wrapping is modelled by `wrapErr`, so error
messages compose exactly as in the source (note that the "No … found"
`RuntimeError`s are raised inside their own `try` block and therefore
re-wrapped by it).  Exceptions coming from the MySQL driver itself
(e.g. querying a table name that does not exist) carry driver-defined
text; they are modelled with a recognisable placeholder message. -/

/-- One table: its name, `SHOW CREATE TABLE` text and rows. -/
structure MySQLTable where
  name : String
  createStmt : String
  rows : List (List PyValue)

/-- The introspected state of the connected database. -/
structure MySQLState where
  tables : List MySQLTable
  fkEdges : List (String × String)
  views : List (String × String)
  functions : List (String × String)
  procedures : List (String × String)
  triggers : List (String × String)
  events : List MySQLEvent

/-- The feature flags and naming configuration `backup` reads from `self`. -/
structure BackupConfig where
  tables : Bool
  data : Bool
  views : Bool
  functions : Bool
  procedures : Bool
  triggers : Bool
  events : Bool
  one_file : Bool
  db_name : String

/-- `except Exception as e: raise RuntimeError(f"<prefix>{e}")`. -/
def wrapErr {α : Type} (pre : String) : Except String α → Except String α
  | .ok a => .ok a
  | .error e => .error (pre ++ e)

/-- `SELECT * FROM name` / `SHOW CREATE TABLE name` resolution. -/
def lookupTable (st : MySQLState) (name : String) : Option MySQLTable :=
  st.tables.find? (fun t => t.name = name)

/-- `MySQLDatabase.get_tables_sorted`: enumerate tables, mine the foreign-key
edges, and topologically sort.  The "No tables found" `RuntimeError` is
raised inside the `try` block and re-wrapped by its `except`; the
`topological_sort` call sits outside the `try`, so its error propagates
unwrapped. -/
def get_tables_sorted (st : MySQLState) : Except String (List String) :=
  let tableNames := st.tables.map MySQLTable.name
  if tableNames = [] then
    .error "Failed to retrieve and sort tables by dependencies: No tables found in the database."
  else
    let d1 := st.fkEdges.foldl (fun d cp => omListAppend d cp.1 cp.2) []
    let d2 := tableNames.foldl (fun d t => omSetdefault d t []) d1
    topological_sort d2

/-- Substring test (`needle in hay` for Python strings). -/
def listContains (needle : List Char) : List Char → Bool
  | [] => needle.isEmpty
  | c :: rest => needle.isPrefixOf (c :: rest) || listContains needle rest

/-- `needle in hay`. -/
def strContains (hay needle : String) : Bool :=
  listContains needle.data hay.data

/-- The textual-reference dependency mining shared by the view and function
sorters: `other` is a prerequisite of `name` when the (lowered) definition
of `name` contains `` `other` `` or `other` (lowered) as a substring. -/
def textualDeps (allNames : List String) (defs : List (String × String)) :
    List (String × List String) :=
  let d1 := defs.foldl
    (fun d vp =>
      allNames.foldl
        (fun d other =>
          if other ≠ vp.1 ∧
              (strContains vp.2 ("`" ++ other.toLower ++ "`")
                || strContains vp.2 other.toLower)
          then omListAppend d vp.1 other else d)
        d)
    []
  allNames.foldl (fun d v => omSetdefault d v []) d1

/-- `MySQLDatabase.get_views_sorted`. -/
def get_views_sorted (st : MySQLState) : Except String (List String) :=
  let allViews := st.views.map Prod.fst
  if allViews = [] then
    .error "Failed to retrieve and sort views by dependencies: No views found in the database."
  else
    topological_sort (textualDeps allViews (st.views.map (fun p => (p.1, p.2.toLower))))

/-- `MySQLDatabase.get_functions_sorted`. -/
def get_functions_sorted (st : MySQLState) : Except String (List String) :=
  let allFunctions := st.functions.map Prod.fst
  if allFunctions = [] then
    .error "Failed to retrieve and sort functions by dependencies: No functions found in the database."
  else
    topological_sort (textualDeps allFunctions (st.functions.map (fun p => (p.1, p.2.toLower))))

/-- The `for table_name in tables:` loop of `create_tables_statements`. -/
def tablesStatementsList (st : MySQLState) : List String → Except String (List String)
  | [] => .ok []
  | name :: rest =>
    match lookupTable st name with
    | some t =>
      (tablesStatementsList st rest).map
        (fun l => ("-- Create " ++ pyCapitalize name ++ " Table\n" ++ t.createStmt) :: l)
    | none => .error ("no such table: " ++ name)

/-- `MySQLDatabase.create_tables_statements`. -/
def create_tables_statements (st : MySQLState) : Except String String :=
  (wrapErr "Failed to retrieve table creation statements: "
    (get_tables_sorted st >>= tablesStatementsList st)).map
    (fun stmts =>
      if stmts ≠ [] then String.intercalate ";\n\n" stmts ++ ";\n\n" else "")

/-- The two statements `create_data_statements` appends for one non-empty
table. -/
def dataBlockPair (name : String) (t : MySQLTable) : List String :=
  ["-- Insert Into " ++ pyCapitalize name ++ " Table\nINSERT INTO `" ++ name ++ "` VALUES",
   "\t" ++ String.intercalate ",\n\t" (t.rows.map (fun r => "(" ++ to_sql_values r ++ ")")) ++ ";"]

/-- The `for table_name in tables:` loop of `create_data_statements`: a
table with zero rows is skipped (`continue`), all others contribute their
INSERT header and value lines. -/
def dataStatementsList (st : MySQLState) : List String → Except String (List String)
  | [] => .ok []
  | name :: rest =>
    match lookupTable st name with
    | some t =>
      if t.rows.isEmpty then dataStatementsList st rest
      else (dataStatementsList st rest).map (fun l => dataBlockPair name t ++ l)
    | none => .error ("no such table: " ++ name)

/-- `MySQLDatabase.create_data_statements`. -/
def create_data_statements (st : MySQLState) : Except String String :=
  (wrapErr "Failed to retrieve data insertion statements: "
    (get_tables_sorted st >>= dataStatementsList st)).map
    (fun stmts =>
      if stmts ≠ [] then String.intercalate "\n" stmts ++ "\n" else "")

/-- The `for view_name in views:` loop of `create_views_statements`. -/
def viewsStatementsList (st : MySQLState) : List String → Except String (List String)
  | [] => .ok []
  | name :: rest =>
    match omFind st.views name with
    | some stmt =>
      (viewsStatementsList st rest).map
        (fun l => ("-- Create " ++ pyCapitalize name ++ " view\n" ++ stmt) :: l)
    | none => .error ("no such view: " ++ name)

/-- `MySQLDatabase.create_views_statements`. -/
def create_views_statements (st : MySQLState) : Except String String :=
  (wrapErr "Failed to retrieve view creation statements: "
    (get_views_sorted st >>= viewsStatementsList st)).map
    (fun stmts =>
      if stmts ≠ [] then String.intercalate ";\n\n" stmts ++ ";\n\n" else "")

/-- The `for function_name in functions:` loop of
`create_functions_statements`, with the delimiter wrapping. -/
def functionsStatementsList (st : MySQLState) : List String → Except String (List String)
  | [] => .ok []
  | name :: rest =>
    match omFind st.functions name with
    | some stmt =>
      (functionsStatementsList st rest).map
        (fun l => ("-- Create " ++ pyCapitalize name ++ " Function\nDELIMITER ;;\n"
          ++ stmt ++ ";;\nDELIMITER ;") :: l)
    | none => .error ("no such function: " ++ name)

/-- `MySQLDatabase.create_functions_statements`. -/
def create_functions_statements (st : MySQLState) : Except String String :=
  (wrapErr "Failed to retrieve function creation statements: "
    (get_functions_sorted st >>= functionsStatementsList st)).map
    (fun stmts =>
      if stmts ≠ [] then String.intercalate "\n\n" stmts ++ "\n\n" else "")

/-- `MySQLDatabase.create_procedures_statements`: enumeration order, no
dependency sorting. -/
def create_procedures_statements (st : MySQLState) : Except String String :=
  if st.procedures = [] then
    .error "Failed to retrieve procedure creation statements: No procedures found in the database."
  else
    let stmts := st.procedures.map
      (fun p => "-- Create " ++ pyCapitalize p.1 ++ " Procedure\nDELIMITER ;;\n"
        ++ p.2 ++ ";;\nDELIMITER ;")
    .ok (if stmts ≠ [] then String.intercalate "\n\n" stmts ++ "\n\n" else "")

/-- `MySQLDatabase.create_triggers_statements`: enumeration order, no
dependency sorting. -/
def create_triggers_statements (st : MySQLState) : Except String String :=
  if st.triggers = [] then
    .error "Failed to retrieve trigger creation statements: No triggers found in the database."
  else
    let stmts := st.triggers.map
      (fun p => "-- Create " ++ pyCapitalize p.1 ++ " Trigger\nDELIMITER ;;\n"
        ++ p.2 ++ ";;\nDELIMITER ;")
    .ok (if stmts ≠ [] then String.intercalate "\n\n" stmts ++ "\n\n" else "")

/-- The backup features in their fixed emission order. -/
inductive Feature where
  | tables | data | views | functions | procedures | triggers | events
  deriving DecidableEq

/-- The feature name used as the dict key and in the file name. -/
def featureName : Feature → String
  | .tables => "tables"
  | .data => "data"
  | .views => "views"
  | .functions => "functions"
  | .procedures => "procedures"
  | .triggers => "triggers"
  | .events => "events"

/-- `getattr(self, feature)`: the feature flag. -/
def featureEnabled (cfg : BackupConfig) : Feature → Bool
  | .tables => cfg.tables
  | .data => cfg.data
  | .views => cfg.views
  | .functions => cfg.functions
  | .procedures => cfg.procedures
  | .triggers => cfg.triggers
  | .events => cfg.events

/-- The statement-generation method bound to each feature. -/
def featureGen : Feature → MySQLState → Except String String
  | .tables => create_tables_statements
  | .data => create_data_statements
  | .views => create_views_statements
  | .functions => create_functions_statements
  | .procedures => create_procedures_statements
  | .triggers => create_triggers_statements
  | .events => fun st =>
      wrapErr "Failed to retrieve event creation statements: "
        (create_events_statements st.events)

/-- `ordered_features` of `MySQLDatabase.backup`. -/
def orderedFeatures : List Feature :=
  [.tables, .data, .views, .functions, .procedures, .triggers, .events]

/-- The feature loop of `backup`: compute each enabled feature's content and
keep the non-empty ones, in order. -/
def collectContents (st : MySQLState) (cfg : BackupConfig) :
    List Feature → List (String × String) → Except String (List (String × String))
  | [], acc => .ok acc
  | f :: rest, acc =>
    if featureEnabled cfg f then
      match featureGen f st with
      | .error e => .error e
      | .ok content =>
        collectContents st cfg rest
          (if content = "" then acc else acc ++ [(featureName f, content)])
    else collectContents st cfg rest acc

/-- `DatabaseBase.create_sql_backup_file`: header comment, `CREATE DATABASE
IF NOT EXISTS`/`USE` preamble, then the content. -/
def create_sql_backup_file (dbName fileName content : String) : String :=
  "-- Backup for " ++ fileName ++ "\n"
    ++ "CREATE DATABASE IF NOT EXISTS `" ++ dbName ++ "`;\n"
    ++ "USE `" ++ dbName ++ "`;\n\n" ++ content

/-- The methods defined on `MySQLDatabase` together with those inherited
from `DatabaseBase` — the class hierarchy that an attribute lookup on
`self` searches.  `create_backup_file` is not among them. -/
def mysqlDatabaseMethodNames : List String :=
  ["connect", "get_tables_sorted", "get_views_sorted", "get_functions_sorted",
   "create_tables_statements", "create_data_statements", "create_views_statements",
   "create_functions_statements", "create_procedures_statements",
   "create_triggers_statements", "create_events_statements", "backup", "restore",
   "close", "topological_sort", "create_sql_backup_file"]

/-- `getattr`-style method resolution on the class hierarchy. -/
def resolveMethod (name : String) : Option String :=
  if name ∈ mysqlDatabaseMethodNames then some name else none

/-- `MySQLDatabase.backup(timestamp)`: run the feature loop, then write a
single file or one file per feature.  The whole body sits in a
`try/except` that re-raises as `RuntimeError(f"Failed to perform backup:
{e}")`.  In the one-file branch the code calls `self.create_backup_file`,
a method that exists nowhere in the class hierarchy, so the attribute
lookup raises `AttributeError` before any file is written.  Returns the
list of `(file name, file content)` pairs written. -/
def backup (st : MySQLState) (cfg : BackupConfig) (timestamp : String) :
    Except String (List (String × String)) :=
  wrapErr "Failed to perform backup: "
    (match collectContents st cfg orderedFeatures [] with
     | .error e => .error e
     | .ok cd =>
       if cd = [] then .error "No content to write to backup files."
       else if cfg.one_file then
         match resolveMethod "create_backup_file" with
         | none => .error "'MySQLDatabase' object has no attribute 'create_backup_file'"
         | some _ => .ok []
       else
         .ok (cd.map (fun fc =>
           (cfg.db_name ++ "_" ++ fc.1 ++ "_" ++ timestamp ++ "_backup.sql",
            create_sql_backup_file cfg.db_name
              (cfg.db_name ++ "_" ++ fc.1 ++ "_" ++ timestamp ++ "_backup.sql") fc.2))))

/-- The enabled feature `f` enumerates zero objects of its kind. -/
def objectsEmpty (st : MySQLState) : Feature → Prop
  | .tables => st.tables = []
  | .data => st.tables = []
  | .views => st.views = []
  | .functions => st.functions = []
  | .procedures => st.procedures = []
  | .triggers => st.triggers = []
  | .events => st.events = []

theorem except_map_ok {α β : Type} (f : α → β) (x : α) :
    Except.map f (.ok x : Except String α) = .ok (f x) := rfl

theorem featureGen_error_of_empty (f : Feature) (st : MySQLState)
    (h : objectsEmpty st f) : ∃ e, featureGen f st = .error e := by
  cases f
  · simp only [objectsEmpty] at h
    refine ⟨"Failed to retrieve table creation statements: "
      ++ "Failed to retrieve and sort tables by dependencies: No tables found in the database.", ?_⟩
    simp [featureGen, create_tables_statements, get_tables_sorted, h, wrapErr,
      Bind.bind, Except.bind, Except.map]
  · simp only [objectsEmpty] at h
    refine ⟨"Failed to retrieve data insertion statements: "
      ++ "Failed to retrieve and sort tables by dependencies: No tables found in the database.", ?_⟩
    simp [featureGen, create_data_statements, get_tables_sorted, h, wrapErr,
      Bind.bind, Except.bind, Except.map]
  · simp only [objectsEmpty] at h
    refine ⟨"Failed to retrieve view creation statements: "
      ++ "Failed to retrieve and sort views by dependencies: No views found in the database.", ?_⟩
    simp [featureGen, create_views_statements, get_views_sorted, h, wrapErr,
      Bind.bind, Except.bind, Except.map]
  · simp only [objectsEmpty] at h
    refine ⟨"Failed to retrieve function creation statements: "
      ++ "Failed to retrieve and sort functions by dependencies: No functions found in the database.", ?_⟩
    simp [featureGen, create_functions_statements, get_functions_sorted, h, wrapErr,
      Bind.bind, Except.bind, Except.map]
  · simp only [objectsEmpty] at h
    refine ⟨"Failed to retrieve procedure creation statements: No procedures found in the database.", ?_⟩
    simp [featureGen, create_procedures_statements, h]
  · simp only [objectsEmpty] at h
    refine ⟨"Failed to retrieve trigger creation statements: No triggers found in the database.", ?_⟩
    simp [featureGen, create_triggers_statements, h]
  · simp only [objectsEmpty] at h
    refine ⟨"Failed to retrieve event creation statements: "
      ++ "No events found in the database.", ?_⟩
    simp [featureGen, create_events_statements, h, wrapErr]

theorem collectContents_error (st : MySQLState) (cfg : BackupConfig) :
    ∀ (fs : List Feature) (acc : List (String × String)) (f : Feature),
    f ∈ fs → featureEnabled cfg f = true → objectsEmpty st f →
    ∃ e, collectContents st cfg fs acc = .error e := by
  intro fs
  induction fs with
  | nil => intro acc f h; simp at h
  | cons g rest ih =>
    intro acc f hmem hen hobj
    rcases List.mem_cons.mp hmem with he | hrest
    · subst he
      obtain ⟨e, hgen⟩ := featureGen_error_of_empty f st hobj
      exact ⟨e, by simp [collectContents, hen, hgen]⟩
    · by_cases hg : featureEnabled cfg g = true
      · cases hgen : featureGen g st with
        | error e => exact ⟨e, by simp [collectContents, hg, hgen]⟩
        | ok content =>
          obtain ⟨e, hrec⟩ := ih
            (if content = "" then acc else acc ++ [(featureName g, content)])
            f hrest hen hobj
          exact ⟨e, by simp [collectContents, hg, hgen, hrec]⟩
      · obtain ⟨e, hrec⟩ := ih acc f hrest hen hobj
        have hg2 : featureEnabled cfg g = false := by
          simpa using hg
        exact ⟨e, by simp [collectContents, hg2, hrec]⟩

/-- C10: for every backup invocation, an enabled feature that enumerates
zero objects of its kind makes its statement-generation operation raise a
`RuntimeError` (first conjunct) and the entire `backup` call fail (second
conjunct); an enabled-but-empty feature is never silently skipped.  Within
the data feature only, a table with zero rows is skipped: the generated
data statements are exactly the header/value blocks of the tables with at
least one row (third conjunct). -/
theorem c10_empty_feature_fails :
    (∀ (f : Feature) (st : MySQLState), objectsEmpty st f →
      ∃ e, featureGen f st = .error e) ∧
    (∀ (st : MySQLState) (cfg : BackupConfig) (timestamp : String) (f : Feature),
      featureEnabled cfg f = true → objectsEmpty st f →
      ∃ e, backup st cfg timestamp = .error e) ∧
    (∀ (st : MySQLState) (ts : List String),
      (∀ n ∈ ts, (lookupTable st n).isSome) →
      dataStatementsList st ts
        = .ok ((ts.filterMap (fun n => (lookupTable st n).bind
            (fun t => if t.rows.isEmpty then none
                      else some (dataBlockPair n t)))).flatten)) := by
  refine ⟨featureGen_error_of_empty, ?_, ?_⟩
  · intro st cfg timestamp f hen hobj
    obtain ⟨e, hcol⟩ := collectContents_error st cfg orderedFeatures [] f
      (by cases f <;> simp [orderedFeatures]) hen hobj
    exact ⟨"Failed to perform backup: " ++ e, by simp [backup, hcol, wrapErr]⟩
  · intro st ts
    induction ts with
    | nil => intro _; rfl
    | cons n rest ih =>
      intro hlk
      have hn : (lookupTable st n).isSome := hlk n (List.mem_cons_self _ _)
      obtain ⟨t, ht⟩ := Option.isSome_iff_exists.mp hn
      have hrest := ih (fun m hm => hlk m (List.mem_cons_of_mem _ hm))
      cases hre : t.rows.isEmpty
      · simp [dataStatementsList, ht, hre, hrest, List.filterMap_cons]
        rfl
      · simp [dataStatementsList, ht, hre, hrest, List.filterMap_cons]

/-- C10 witness: with views enabled and no views in the database, the
backup fails. -/
theorem c10_empty_feature_fails_witness :
    ∃ e, backup
        ⟨[⟨"t", "CREATE TABLE `t` (id INT)", []⟩], [], [], [], [], [], []⟩
        ⟨true, false, true, false, false, false, false, false, "db"⟩ "20240101"
      = .error e :=
  c10_empty_feature_fails.2.1
    ⟨[⟨"t", "CREATE TABLE `t` (id INT)", []⟩], [], [], [], [], [], []⟩
    ⟨true, false, true, false, false, false, false, false, "db"⟩ "20240101"
    .views rfl rfl

/-- C9: whenever the single-file output mode is selected and the feature
loop produced at least one non-empty content block, `backup` raises the
wrapped `AttributeError` and writes no backup file, because the branch
calls `create_backup_file`, which is defined nowhere in the class
hierarchy (`resolveMethod` finds no such method). -/
theorem c9_backup_one_file (st : MySQLState) (cfg : BackupConfig)
    (timestamp : String) (cd : List (String × String))
    (hcd : collectContents st cfg orderedFeatures [] = .ok cd) (hne : cd ≠ [])
    (hone : cfg.one_file = true) :
    backup st cfg timestamp
      = .error "Failed to perform backup: 'MySQLDatabase' object has no attribute 'create_backup_file'"
    ∧ resolveMethod "create_backup_file" = none := by
  have hres : resolveMethod "create_backup_file" = none := by decide
  refine ⟨?_, hres⟩
  rw [backup, hcd]
  simp [hne, hone, hres, wrapErr]

/-- C9 witness: a one-table database backed up with only the tables feature
enabled, in single-file mode. -/
theorem c9_backup_one_file_witness :
    backup ⟨[⟨"t", "CREATE TABLE `t` (id INT)", []⟩], [], [], [], [], [], []⟩
        ⟨true, false, false, false, false, false, false, true, "db"⟩ "20240101"
      = .error "Failed to perform backup: 'MySQLDatabase' object has no attribute 'create_backup_file'"
    ∧ resolveMethod "create_backup_file" = none :=
  c9_backup_one_file
    ⟨[⟨"t", "CREATE TABLE `t` (id INT)", []⟩], [], [], [], [], [], []⟩
    ⟨true, false, false, false, false, false, false, true, "db"⟩ "20240101"
    [("tables", "-- Create T Table\nCREATE TABLE `t` (id INT);\n\n")]
    (by rfl) (by decide) rfl

/-! ## SHA-256 and HMAC-SHA256

`compute_hmac` (src/utils/generate_hmac.py) calls Python's
`hmac.new(key, digestmod=hashlib.sha256)` and feeds the file in 4 KiB
chunks; incremental update over chunks hashes the concatenation, so the
model hashes the whole content.  SHA-256 (FIPS 180-4) and HMAC (RFC 2104)
are implemented here over byte lists, with 32-bit words as `Nat` reduced
modulo `2^32`. -/

/-- Truncate to a 32-bit word. -/
def w32 (n : Nat) : Nat := n % 4294967296

/-- 32-bit right rotation. -/
def rotr32 (k x : Nat) : Nat := w32 ((x >>> k) ||| (x <<< (32 - k)))

/-- SHA-256 `Ch` (not-x is x XOR 0xffffffff on 32 bits). -/
def shaCh (x y z : Nat) : Nat := (x &&& y) ^^^ ((x ^^^ 4294967295) &&& z)

/-- SHA-256 `Maj`. -/
def shaMaj (x y z : Nat) : Nat := (x &&& y) ^^^ (x &&& z) ^^^ (y &&& z)

/-- SHA-256 `Σ0`. -/
def bigSigma0 (x : Nat) : Nat := rotr32 2 x ^^^ rotr32 13 x ^^^ rotr32 22 x

/-- SHA-256 `Σ1`. -/
def bigSigma1 (x : Nat) : Nat := rotr32 6 x ^^^ rotr32 11 x ^^^ rotr32 25 x

/-- SHA-256 `σ0`. -/
def smallSigma0 (x : Nat) : Nat := rotr32 7 x ^^^ rotr32 18 x ^^^ (x >>> 3)

/-- SHA-256 `σ1`. -/
def smallSigma1 (x : Nat) : Nat := rotr32 17 x ^^^ rotr32 19 x ^^^ (x >>> 10)

/-- The 64 SHA-256 round constants. -/
def shaK : List Nat :=
  [1116352408, 1899447441, 3049323471, 3921009573, 961987163,
   1508970993, 2453635748, 2870763221, 3624381080, 310598401,
   607225278, 1426881987, 1925078388, 2162078206, 2614888103,
   3248222580, 3835390401, 4022224774, 264347078, 604807628,
   770255983, 1249150122, 1555081692, 1996064986, 2554220882,
   2821834349, 2952996808, 3210313671, 3336571891, 3584528711,
   113926993, 338241895, 666307205, 773529912, 1294757372,
   1396182291, 1695183700, 1986661051, 2177026350, 2456956037,
   2730485921, 2820302411, 3259730800, 3345764771, 3516065817,
   3600352804, 4094571909, 275423344, 430227734, 506948616,
   659060556, 883997877, 958139571, 1322822218, 1537002063,
   1747873779, 1955562222, 2024104815, 2227730452, 2361852424,
   2428436474, 2756734187, 3204031479, 3329325298]

/-- The SHA-256 initial hash value. -/
def shaH0 : List Nat :=
  [1779033703, 3144134277, 1013904242, 2773480762,
   1359893119, 2600822924, 528734635, 1541459225]

/-- Big-endian bytes of `n`, fixed width. -/
def natToBytesBE : Nat → Nat → List Nat
  | 0, _ => []
  | k + 1, n => natToBytesBE k (n / 256) ++ [n % 256]

/-- Big-endian 32-bit words from bytes. -/
def bytesToWords : List Nat → List Nat
  | b0 :: b1 :: b2 :: b3 :: rest =>
    (b0 * 16777216 + b1 * 65536 + b2 * 256 + b3) :: bytesToWords rest
  | _ => []

/-- Extend the 16 message words to 64. -/
def extendSchedule : Nat → List Nat → List Nat
  | 0, w => w
  | k + 1, w =>
    let n := w.length
    extendSchedule k (w ++ [w32 (smallSigma1 (w.getD (n - 2) 0) + w.getD (n - 7) 0
      + smallSigma0 (w.getD (n - 15) 0) + w.getD (n - 16) 0)])

/-- One SHA-256 round on the working state `(a,b,c,d,e,f,g,h)`. -/
def shaCompressStep (s : Nat × Nat × Nat × Nat × Nat × Nat × Nat × Nat)
    (ki wi : Nat) : Nat × Nat × Nat × Nat × Nat × Nat × Nat × Nat :=
  let t1 := w32 (s.2.2.2.2.2.2.2 + bigSigma1 s.2.2.2.2.1
    + shaCh s.2.2.2.2.1 s.2.2.2.2.2.1 s.2.2.2.2.2.2.1 + ki + wi)
  let t2 := w32 (bigSigma0 s.1 + shaMaj s.1 s.2.1 s.2.2.1)
  (w32 (t1 + t2), s.1, s.2.1, s.2.2.1, w32 (s.2.2.2.1 + t1),
   s.2.2.2.2.1, s.2.2.2.2.2.1, s.2.2.2.2.2.2.1)

/-- Compress one 64-byte block into the chaining value. -/
def shaCompress (hs : List Nat) (block : List Nat) : List Nat :=
  let w := extendSchedule 48 (bytesToWords block)
  let s0 := (hs.getD 0 0, hs.getD 1 0, hs.getD 2 0, hs.getD 3 0,
             hs.getD 4 0, hs.getD 5 0, hs.getD 6 0, hs.getD 7 0)
  let s := (shaK.zip w).foldl (fun s kw => shaCompressStep s kw.1 kw.2) s0
  [w32 (s.1 + hs.getD 0 0), w32 (s.2.1 + hs.getD 1 0), w32 (s.2.2.1 + hs.getD 2 0),
   w32 (s.2.2.2.1 + hs.getD 3 0), w32 (s.2.2.2.2.1 + hs.getD 4 0),
   w32 (s.2.2.2.2.2.1 + hs.getD 5 0), w32 (s.2.2.2.2.2.2.1 + hs.getD 6 0),
   w32 (s.2.2.2.2.2.2.2 + hs.getD 7 0)]

/-- SHA-256 padding: `0x80`, zeros to 56 mod 64, 8-byte bit length. -/
def sha256Pad (msg : List Nat) : List Nat :=
  msg ++ [128] ++ List.replicate ((119 - msg.length % 64) % 64) 0
    ++ natToBytesBE 8 (msg.length * 8)

/-- Split into 64-byte blocks (`count` = number of blocks). -/
def chunk64 : Nat → List Nat → List (List Nat)
  | 0, _ => []
  | k + 1, l => l.take 64 :: chunk64 k (l.drop 64)

/-- SHA-256 of a byte string. -/
def sha256 (msg : List Nat) : List Nat :=
  let padded := sha256Pad msg
  let hs := (chunk64 (padded.length / 64) padded).foldl shaCompress shaH0
  (hs.map (natToBytesBE 4)).flatten

/-- HMAC-SHA256 (RFC 2104, block size 64). -/
def hmacSha256 (key msg : List Nat) : List Nat :=
  let k0 := if 64 < key.length then sha256 key else key
  let k1 := k0 ++ List.replicate (64 - k0.length) 0
  sha256 ((k1.map (fun b => b ^^^ 92)) ++ sha256 ((k1.map (fun b => b ^^^ 54)) ++ msg))

/-! ## The keyed-MAC integrity service (src/security/security_metadata.py,
src/utils/generate_hmac.py)

The processing directory is a list of `(file name, file bytes)` pairs;
`create_integrity_file` returns the text written to `integrity.hmac`, and
`verify_integrity` takes that text back together with the (possibly
modified) directory.  Strings are UTF-8 encoded where the Python code
calls `.encode()`. -/

/-- The newline character. -/
def nl : Char := Char.ofNat 10

/-- UTF-8 encoding of one scalar value. -/
def utf8EncodeChar (c : Char) : List Nat :=
  let n := c.toNat
  if n < 128 then [n]
  else if n < 2048 then [192 + n / 64, 128 + n % 64]
  else if n < 65536 then [224 + n / 4096, 128 + n / 64 % 64, 128 + n % 64]
  else [240 + n / 262144, 128 + n / 4096 % 64, 128 + n / 64 % 64, 128 + n % 64]

/-- `str.encode()`. -/
def utf8Encode (s : String) : List Nat :=
  (s.data.map utf8EncodeChar).flatten

/-- `compute_hmac(file_path, key)` with the file's bytes in hand: empty key
raises `ValueError`, otherwise HMAC-SHA256 hex digest. -/
def compute_hmac (content : List Nat) (key : List Nat) : Except String String :=
  if key = [] then .error "HMAC key must be provided."
  else .ok (bytesHex (hmacSha256 key content))

/-- A directory: file names with their byte contents. -/
def IntegrityFiles := List (String × List Nat)

/-- Insert while keeping names sorted (stable). -/
def insertSortedFile (x : String × List Nat) : List (String × List Nat) → List (String × List Nat)
  | [] => [x]
  | y :: rest => if x.1 < y.1 then x :: y :: rest else y :: insertSortedFile x rest

/-- `sorted(self.processing_path.glob("*"))`: the directory listing sorted
by name (Python compares path strings by code point). -/
def sortFiles : List (String × List Nat) → List (String × List Nat)
  | [] => []
  | x :: rest => insertSortedFile x (sortFiles rest)

/-- The write loop of `create_integrity_file`: skip the manifest itself,
one `<hex-tag>␣␣<name>\n` line per file. -/
def integrityLines (pw : List Nat) : List (String × List Nat) → Except String String
  | [] => .ok ""
  | (name, content) :: rest =>
    if name = "integrity.hmac" then integrityLines pw rest
    else
      match compute_hmac content pw with
      | .error e => .error e
      | .ok tag =>
        (integrityLines pw rest).map (fun s => tag ++ "  " ++ name ++ "\n" ++ s)

/-- `SecurityMetadata.create_integrity_file`: error when the directory is
empty, otherwise the manifest text; any exception inside the write loop is
replaced by `RuntimeError("Failed to create integrity file")`. -/
def create_integrity_file (files : List (String × List Nat)) (password : String) :
    Except String String :=
  let sorted := sortFiles files
  if sorted = [] then .error "No files found in the processing path."
  else
    match integrityLines (utf8Encode password) sorted with
    | .error _ => .error "Failed to create integrity file"
    | .ok m => .ok m

/-- Python whitespace characters for `str.strip` / `str.split`. -/
def isPySpace (c : Char) : Bool :=
  c.toNat = 32 || c.toNat = 9 || c.toNat = 10 || c.toNat = 13
    || c.toNat = 11 || c.toNat = 12

/-- `str.strip()`. -/
def pyStrip (s : String) : String :=
  String.mk (((s.data.dropWhile isPySpace).reverse.dropWhile isPySpace).reverse)

/-- `str.split()` worker: split on whitespace runs, dropping empties. -/
def pySplitAux : List Char → List Char → List String
  | acc, [] => if acc = [] then [] else [String.mk acc.reverse]
  | acc, c :: rest =>
    if isPySpace c then
      if acc = [] then pySplitAux [] rest
      else String.mk acc.reverse :: pySplitAux [] rest
    else pySplitAux (c :: acc) rest

/-- `str.split()` with no argument. -/
def pySplit (s : String) : List String := pySplitAux [] s.data

/-- Split at newlines keeping an explicit (possibly empty) last segment;
the result is always nonempty, so prepending to the head is total. -/
def splitOnNl : List Char → List (List Char)
  | [] => [[]]
  | c :: rest =>
    if c = nl then [] :: splitOnNl rest
    else (c :: (splitOnNl rest).headD []) :: (splitOnNl rest).tail

/-- `for line in f`: the lines of a text file (each subsequently stripped,
so the trailing newline is immaterial; a final empty segment is not a
line). -/
def linesOf (s : String) : List String :=
  let parts := splitOnNl s.data
  (if parts.getLast? = some [] then parts.dropLast else parts).map String.mk

/-- The read loop of `verify_integrity`: unpack each line, skip the
manifest's own name, check existence, recompute and compare the tag. -/
def verifyLines (files : List (String × List Nat)) (pw : List Nat) :
    List String → Except String Bool
  | [] => .ok true
  | line :: rest =>
    match pySplit (pyStrip line) with
    | [checksum, filename] =>
      if filename = "integrity.hmac" then verifyLines files pw rest
      else
        match omFind files filename with
        | none => .error ("File " ++ filename ++ " does not exist in the processing path.")
        | some content =>
          match compute_hmac content pw with
          | .error e => .error e
          | .ok tag =>
            if tag ≠ checksum then .error ("Checksum mismatch for file " ++ filename)
            else verifyLines files pw rest
    | _ => .error "values to unpack"

/-- `SecurityMetadata.verify_integrity`, reading the given manifest text
against the directory (`FileNotFoundError` and `ValueError` are re-raised
unchanged by its `except` clause). -/
def verify_integrity (manifest : String) (files : List (String × List Nat))
    (password : String) : Except String Bool :=
  verifyLines files (utf8Encode password) (linesOf manifest)

/-- Concatenation of a list of strings. -/
def concatStrings : List String → String
  | [] => ""
  | s :: rest => s ++ concatStrings rest

/-- Claim-side manifest: one HMAC line per sorted non-manifest file, keyed
by the raw UTF-8 password bytes. -/
def manifestSpec (files : List (String × List Nat)) (password : String) : String :=
  concatStrings (((sortFiles files).filter (fun f => f.1 ≠ "integrity.hmac")).map
    (fun f => bytesHex (hmacSha256 (utf8Encode password) f.2) ++ "  " ++ f.1 ++ "\n"))

/-! ### Auxiliary facts about the integrity model -/

theorem insertSortedFile_perm (x : String × List Nat) (l : List (String × List Nat)) :
    (insertSortedFile x l).Perm (x :: l) := by
  induction l with
  | nil => exact List.Perm.refl _
  | cons y rest ih =>
    by_cases h : x.1 < y.1
    · simp [insertSortedFile, h]
    · simp only [insertSortedFile, if_neg h]
      exact (List.Perm.cons y ih).trans (List.Perm.swap x y rest)

theorem sortFiles_perm (l : List (String × List Nat)) : (sortFiles l).Perm l := by
  induction l with
  | nil => exact List.Perm.refl _
  | cons x rest ih =>
    exact (insertSortedFile_perm x (sortFiles rest)).trans (List.Perm.cons x ih)

theorem sortFiles_ne_nil {l : List (String × List Nat)} (h : l ≠ []) :
    sortFiles l ≠ [] := by
  intro he
  have := (sortFiles_perm l).length_eq
  rw [he] at this
  exact h (List.eq_nil_of_length_eq_zero this.symm)

theorem utf8EncodeChar_ne_nil (c : Char) : utf8EncodeChar c ≠ [] := by
  unfold utf8EncodeChar
  by_cases h1 : c.toNat < 128
  · simp [h1]
  · by_cases h2 : c.toNat < 2048
    · simp [h1, h2]
    · by_cases h3 : c.toNat < 65536
      · simp [h1, h2, h3]
      · simp [h1, h2, h3]

theorem utf8Encode_ne_nil {s : String} (h : s ≠ "") : utf8Encode s ≠ [] := by
  unfold utf8Encode
  cases hd : s.data with
  | nil =>
    exfalso
    apply h
    have : s = String.mk s.data := rfl
    rw [this, hd]
  | cons c rest =>
    simp only [hd, List.map_cons, List.flatten_cons]
    intro he
    exact utf8EncodeChar_ne_nil c (List.append_eq_nil.mp he).1

theorem natToBytesBE_length : ∀ (k n : Nat), (natToBytesBE k n).length = k := by
  intro k
  induction k with
  | zero => intro n; rfl
  | succ k2 ih => intro n; simp [natToBytesBE, ih]

theorem shaCompress_length (hs block : List Nat) : (shaCompress hs block).length = 8 := rfl

theorem foldl_shaCompress_length :
    ∀ (blocks : List (List Nat)) (hs : List Nat), hs.length = 8 →
    (blocks.foldl shaCompress hs).length = 8 := by
  intro blocks
  induction blocks with
  | nil => intro hs h; exact h
  | cons b rest ih => intro hs _; exact ih _ (shaCompress_length hs b)

theorem sha256_length (msg : List Nat) : (sha256 msg).length = 32 := by
  unfold sha256
  rw [List.length_flatten]
  have h8 := foldl_shaCompress_length
    (chunk64 ((sha256Pad msg).length / 64) (sha256Pad msg)) shaH0 rfl
  set hs := (chunk64 ((sha256Pad msg).length / 64) (sha256Pad msg)).foldl shaCompress shaH0
  have hmap : (hs.map (natToBytesBE 4)).map List.length = hs.map (fun _ => 4) := by
    rw [List.map_map]
    exact List.map_congr_left (fun x _ => natToBytesBE_length 4 x)
  rw [hmap]
  have : (hs.map (fun _ => 4)).sum = 4 * hs.length := by
    induction hs with
    | nil => rfl
    | cons a rest ih => simp [ih]; ring
  rw [this, h8]

theorem hmacSha256_length (key msg : List Nat) : (hmacSha256 key msg).length = 32 := by
  unfold hmacSha256
  exact sha256_length _

theorem hexDigit_range : ∀ x, x < 16 → 48 ≤ (hexDigit x).toNat ∧ (hexDigit x).toNat ≤ 102 := by
  decide

theorem bytesHex_char_range {bs : List Nat} {c : Char}
    (h : c ∈ (bytesHex bs).data) : 48 ≤ c.toNat ∧ c.toNat ≤ 102 := by
  have hmem : c ∈ (bs.map byteHex).flatten := h
  rw [List.mem_flatten] at hmem
  obtain ⟨l, hl, hc⟩ := hmem
  rw [List.mem_map] at hl
  obtain ⟨b, _, hbh⟩ := hl
  rw [← hbh] at hc
  rcases List.mem_pair.mp hc with he | he
  · rw [he]
    exact hexDigit_range _ (Nat.mod_lt _ (by omega))
  · rw [he]
    exact hexDigit_range _ (Nat.mod_lt _ (by omega))

theorem bytesHex_not_space {bs : List Nat} {c : Char}
    (h : c ∈ (bytesHex bs).data) : isPySpace c = false := by
  obtain ⟨h1, _⟩ := bytesHex_char_range h
  unfold isPySpace
  simp only [Bool.or_eq_false_iff, decide_eq_false_iff_not]
  omega

theorem bytesHex_data_ne_nil {bs : List Nat} (h : bs ≠ []) :
    (bytesHex bs).data ≠ [] := by
  cases bs with
  | nil => exact absurd rfl h
  | cons b rest =>
    show (byteHex b ++ _) ≠ []
    simp [byteHex]

theorem pyStrip_eq_self (cs : List Char)
    (h1 : ∀ c, cs.head? = some c → isPySpace c = false)
    (h2 : ∀ c, cs.getLast? = some c → isPySpace c = false) :
    pyStrip (String.mk cs) = String.mk cs := by
  unfold pyStrip
  show String.mk (((cs.dropWhile isPySpace).reverse.dropWhile isPySpace).reverse) = _
  cases cs with
  | nil => rfl
  | cons a l =>
    have ha : isPySpace a = false := h1 a rfl
    rw [List.dropWhile_cons, ha]
    simp only [Bool.false_eq_true, if_false]
    cases hrev : (a :: l).reverse with
    | nil => simp at hrev
    | cons b m =>
      have hb : isPySpace b = false := by
        apply h2
        rw [← List.head?_reverse, hrev]
        rfl
      have hred : List.dropWhile isPySpace (b :: m) = b :: m := by
        rw [List.dropWhile_cons, hb]
        simp
      rw [hred, ← hrev, List.reverse_reverse]

theorem pySplitAux_word :
    ∀ (w : List Char), (∀ c ∈ w, isPySpace c = false) →
    ∀ (acc rest : List Char),
    pySplitAux acc (w ++ rest) = pySplitAux (w.reverse ++ acc) rest := by
  intro w
  induction w with
  | nil => intro _ acc rest; simp
  | cons c tl ih =>
    intro hw acc rest
    have hc : isPySpace c = false := hw c (List.mem_cons_self _ _)
    show pySplitAux acc (c :: (tl ++ rest)) = _
    simp only [pySplitAux, hc, Bool.false_eq_true, if_false]
    rw [ih (fun d hd => hw d (List.mem_cons_of_mem _ hd)) (c :: acc) rest]
    simp [List.append_assoc]

theorem pySplit_tag_name (T N : List Char) (hT : T ≠ []) (hN : N ≠ [])
    (hTs : ∀ c ∈ T, isPySpace c = false) (hNs : ∀ c ∈ N, isPySpace c = false) :
    pySplitAux [] (T ++ Char.ofNat 32 :: Char.ofNat 32 :: N)
      = [String.mk T, String.mk N] := by
  rw [pySplitAux_word T hTs [] _]
  have hsp : isPySpace (Char.ofNat 32) = true := by decide
  have hTr : T.reverse ++ [] ≠ [] := by
    simp [hT]
  show pySplitAux (T.reverse ++ []) (Char.ofNat 32 :: Char.ofNat 32 :: N) = _
  simp only [pySplitAux, hsp, if_true, hTr, List.append_nil]
  have hTr2 : ¬ T.reverse = [] := by simp [hT]
  rw [if_neg hTr2]
  simp only [List.reverse_reverse]
  have hstepN := pySplitAux_word N hNs [] []
  rw [List.append_nil] at hstepN
  rw [hstepN]
  have hNr2 : ¬ N.reverse = [] := by simp [hN]
  show _ :: pySplitAux (N.reverse ++ []) [] = _
  simp only [pySplitAux, List.append_nil]
  rw [if_neg hNr2, List.reverse_reverse]

theorem splitOnNl_append (a rest : List Char) (ha : nl ∉ a) :
    splitOnNl (a ++ nl :: rest) = a :: splitOnNl rest := by
  induction a with
  | nil => simp [splitOnNl]
  | cons c tl ih =>
    have hc : ¬ c = nl := fun e => ha (by rw [e]; exact List.mem_cons_self _ _)
    have ih2 := ih (fun hm => ha (List.mem_cons_of_mem _ hm))
    simp only [List.cons_append, splitOnNl, if_neg hc, List.append_eq, ih2,
      List.headD_cons, List.tail_cons]

theorem concatStrings_data :
    ∀ (ls : List String), (concatStrings ls).data = (ls.map String.data).flatten := by
  intro ls
  induction ls with
  | nil => rfl
  | cons s rest ih =>
    show (s ++ concatStrings rest).data = _
    rw [String.data_append, ih]
    simp

theorem linesOf_concat (ls : List String) (h : ∀ l ∈ ls, nl ∉ l.data) :
    linesOf (concatStrings (ls.map (fun l => l ++ "\n"))) = ls := by
  have hsplit : splitOnNl (concatStrings (ls.map (fun l => l ++ "\n"))).data
      = ls.map String.data ++ [[]] := by
    rw [concatStrings_data]
    induction ls with
    | nil => rfl
    | cons l rest ih =>
      simp only [List.map_cons, List.flatten_cons]
      have hld : (l ++ "\n").data = l.data ++ nl :: [] := by
        rw [String.data_append]
        rfl
      rw [hld, List.append_assoc]
      show splitOnNl (l.data ++ nl :: ([] ++ _)) = _
      rw [List.nil_append,
        splitOnNl_append l.data _ (h l (List.mem_cons_self _ _)),
        ih (fun x hx => h x (List.mem_cons_of_mem _ hx))]
      rfl
  have hlast : (ls.map String.data ++ [[]]).getLast? = some [] := by
    simp [List.getLast?_concat]
  simp only [linesOf, hsplit, hlast, if_pos, List.dropLast_concat, List.map_map]
  rw [show String.mk ∘ String.data = id from funext (fun _ => rfl), List.map_id]

theorem integrityLines_spec (pw : List Nat) (hpw : pw ≠ []) :
    ∀ fs : List (String × List Nat),
    integrityLines pw fs
      = .ok (concatStrings ((fs.filter (fun f => f.1 ≠ "integrity.hmac")).map
          (fun f => bytesHex (hmacSha256 pw f.2) ++ "  " ++ f.1 ++ "\n"))) := by
  intro fs
  induction fs with
  | nil => rfl
  | cons f rest ih =>
    obtain ⟨n, c⟩ := f
    by_cases hn : n = "integrity.hmac"
    · simp only [integrityLines, hn, if_pos rfl, ih, List.filter_cons]
      simp
    · simp only [integrityLines, if_neg hn, compute_hmac, if_neg hpw, ih, List.filter_cons]
      have : (decide (n ≠ "integrity.hmac")) = true := by
        simpa using hn
      simp [this, concatStrings]
      rfl

/-! ### C2 / C5: the integrity manifest -/

/-- A file name the verifier round-trips intact: nonempty and free of
Python whitespace (which `str.strip` / `str.split` would mangle). -/
def goodName (n : String) : Bool :=
  !(n = "") && n.data.all (fun c => !isPySpace c)

theorem goodName_ne_nil {n : String} (h : goodName n = true) : n.data ≠ [] := by
  unfold goodName at h
  rw [Bool.and_eq_true] at h
  intro he
  have : n = "" := by
    have h0 : n = String.mk n.data := rfl
    rw [h0, he]
  simp [this] at h

theorem goodName_no_space {n : String} (h : goodName n = true) :
    ∀ c ∈ n.data, isPySpace c = false := by
  unfold goodName at h
  rw [Bool.and_eq_true, List.all_eq_true] at h
  intro c hc
  have := h.2 c hc
  simpa using this

/-- Shared helper: on a nonempty directory with a nonempty password the
manifest build succeeds and produces exactly the HMAC lines. -/
theorem create_integrity_ok (files : List (String × List Nat)) (password : String)
    (hf : files ≠ []) (hp : password ≠ "") :
    create_integrity_file files password = .ok (manifestSpec files password) := by
  have hs : sortFiles files ≠ [] := sortFiles_ne_nil hf
  have hpw : utf8Encode password ≠ [] := utf8Encode_ne_nil hp
  simp only [create_integrity_file, if_neg hs, integrityLines_spec _ hpw, manifestSpec]

/-- The data of an HMAC line `tag␣␣name`. -/
theorem line_data (tag name : String) :
    (tag ++ "  " ++ name).data
      = tag.data ++ Char.ofNat 32 :: Char.ofNat 32 :: name.data := by
  rw [String.data_append, String.data_append]
  have : ("  " : String).data = [Char.ofNat 32, Char.ofNat 32] := by decide
  rw [this, List.append_assoc]
  rfl

/-- Stripping and splitting a manifest line recovers the tag and the name. -/
theorem line_strip_split (pw : List Nat) (name : String)
    (hn : goodName name = true) (content : List Nat) :
    pySplit (pyStrip (bytesHex (hmacSha256 pw content) ++ "  " ++ name))
      = [bytesHex (hmacSha256 pw content), name] := by
  set tag := bytesHex (hmacSha256 pw content) with htag
  have hhm : hmacSha256 pw content ≠ [] := by
    intro he
    have := hmacSha256_length pw content
    rw [he] at this
    simp at this
  have hT : tag.data ≠ [] := bytesHex_data_ne_nil hhm
  have hN : name.data ≠ [] := goodName_ne_nil hn
  have hTs : ∀ c ∈ tag.data, isPySpace c = false := fun c hc => bytesHex_not_space hc
  have hNs : ∀ c ∈ name.data, isPySpace c = false := goodName_no_space hn
  have hdata := line_data tag name
  have hstrip : pyStrip (tag ++ "  " ++ name) = tag ++ "  " ++ name := by
    have heq : tag ++ "  " ++ name = String.mk (tag ++ "  " ++ name).data := rfl
    rw [heq, pyStrip_eq_self]
    · intro c hc
      rw [hdata] at hc
      cases hTd : tag.data with
      | nil => exact absurd hTd hT
      | cons a l =>
        rw [hTd] at hc
        simp only [List.cons_append, List.head?_cons, Option.some_inj] at hc
        exact hTs c (by rw [hTd, ← hc]; exact List.mem_cons_self _ _)
    · intro c hc
      have hassoc : tag.data ++ Char.ofNat 32 :: Char.ofNat 32 :: name.data
          = (tag.data ++ [Char.ofNat 32, Char.ofNat 32]) ++ name.data := by
        simp
      rw [hdata, hassoc, List.getLast?_append_of_ne_nil _ hN] at hc
      exact hNs c (List.mem_of_getLast?_eq_some hc)
  rw [hstrip]
  show pySplitAux [] (tag ++ "  " ++ name).data = _
  rw [hdata, pySplit_tag_name tag.data name.data hT hN hTs hNs]

/-- No newline occurs inside an HMAC line. -/
theorem line_no_nl (pw : List Nat) (name : String) (hn : goodName name = true)
    (content : List Nat) :
    nl ∉ (bytesHex (hmacSha256 pw content) ++ "  " ++ name).data := by
  rw [line_data]
  intro hmem
  have hsp : isPySpace nl = true := by decide
  rcases List.mem_append.mp hmem with h | h
  · rw [bytesHex_not_space h] at hsp
    exact Bool.false_ne_true hsp
  · rcases List.mem_cons.mp h with he | h2
    · exact absurd he (by decide)
    · rcases List.mem_cons.mp h2 with he | h3
      · exact absurd he (by decide)
      · rw [goodName_no_space hn nl h3] at hsp
        exact Bool.false_ne_true hsp

/-- `linesOf` of a manifest returns the HMAC lines without their newlines. -/
theorem linesOf_manifest (pw : List Nat) (sub : List (String × List Nat))
    (hg : ∀ p ∈ sub, goodName p.1 = true) :
    linesOf (concatStrings (sub.map
        (fun f => bytesHex (hmacSha256 pw f.2) ++ "  " ++ f.1 ++ "\n")))
      = sub.map (fun f => bytesHex (hmacSha256 pw f.2) ++ "  " ++ f.1) := by
  have hmm : sub.map (fun f => bytesHex (hmacSha256 pw f.2) ++ "  " ++ f.1 ++ "\n")
      = (sub.map (fun f => bytesHex (hmacSha256 pw f.2) ++ "  " ++ f.1)).map
          (fun l => l ++ "\n") := by
    rw [List.map_map]
    rfl
  rw [hmm, linesOf_concat]
  intro l hl
  rw [List.mem_map] at hl
  obtain ⟨f, hf, hfl⟩ := hl
  rw [← hfl]
  exact line_no_nl pw f.1 (hg f hf) f.2

/-- Verification succeeds on every line whose file is present unchanged. -/
theorem verifyLines_all_ok (files : List (String × List Nat)) (pw : List Nat)
    (hpw : pw ≠ []) :
    ∀ sub : List (String × List Nat),
    (∀ p ∈ sub, goodName p.1 = true) →
    (∀ p ∈ sub, p.1 ≠ "integrity.hmac" → omFind files p.1 = some p.2) →
    verifyLines files pw
        (sub.map (fun f => bytesHex (hmacSha256 pw f.2) ++ "  " ++ f.1)) = .ok true := by
  intro sub
  induction sub with
  | nil => intro _ _; rfl
  | cons p rest ih =>
    intro hg hf
    obtain ⟨n, c⟩ := p
    have hsplit := line_strip_split pw n (hg _ (List.mem_cons_self _ _)) c
    simp only [List.map_cons, verifyLines, hsplit]
    by_cases hn : n = "integrity.hmac"
    · rw [if_pos hn]
      exact ih (fun q hq => hg q (List.mem_cons_of_mem _ hq))
        (fun q hq => hf q (List.mem_cons_of_mem _ hq))
    · rw [if_neg hn, hf _ (List.mem_cons_self _ _) hn]
      simp only [compute_hmac, if_neg hpw]
      rw [if_neg (by simp)]
      exact ih (fun q hq => hg q (List.mem_cons_of_mem _ hq))
        (fun q hq => hf q (List.mem_cons_of_mem _ hq))

/-- Verification hits the mismatch error at the mutated file's line. -/
theorem verifyLines_mismatch (files : List (String × List Nat)) (pw : List Nat)
    (hpw : pw ≠ []) (name : String) (mutc : List Nat)
    (hfind : omFind files name = some mutc) (hni : name ≠ "integrity.hmac") :
    ∀ sub : List (String × List Nat),
    (∀ p ∈ sub, goodName p.1 = true) →
    (∀ p ∈ sub, p.1 ≠ name → p.1 ≠ "integrity.hmac" → omFind files p.1 = some p.2) →
    (∀ p ∈ sub, p.1 = name →
        bytesHex (hmacSha256 pw mutc) ≠ bytesHex (hmacSha256 pw p.2)) →
    name ∈ sub.map Prod.fst →
    verifyLines files pw
        (sub.map (fun f => bytesHex (hmacSha256 pw f.2) ++ "  " ++ f.1))
      = .error ("Checksum mismatch for file " ++ name) := by
  intro sub
  induction sub with
  | nil => intro _ _ _ hmem; simp at hmem
  | cons p rest ih =>
    intro hg hf hmut hmem
    obtain ⟨n, c⟩ := p
    have hsplit := line_strip_split pw n (hg _ (List.mem_cons_self _ _)) c
    simp only [List.map_cons, verifyLines, hsplit]
    by_cases hne : n = name
    · have hni2 : ¬ n = "integrity.hmac" := by rw [hne]; exact hni
      rw [if_neg hni2, hne, hfind]
      simp only [compute_hmac, if_neg hpw]
      rw [if_pos (hmut _ (List.mem_cons_self _ _) hne)]
    · have hmem2 : name ∈ rest.map Prod.fst := by
        rcases List.mem_cons.mp hmem with he | h2
        · exact absurd he.symm hne
        · exact h2
      by_cases hn : n = "integrity.hmac"
      · rw [if_pos hn]
        exact ih (fun q hq => hg q (List.mem_cons_of_mem _ hq))
          (fun q hq => hf q (List.mem_cons_of_mem _ hq))
          (fun q hq => hmut q (List.mem_cons_of_mem _ hq)) hmem2
      · rw [if_neg hn, hf _ (List.mem_cons_self _ _) hne hn]
        simp only [compute_hmac, if_neg hpw]
        rw [if_neg (by simp)]
        exact ih (fun q hq => hg q (List.mem_cons_of_mem _ hq))
          (fun q hq => hf q (List.mem_cons_of_mem _ hq))
          (fun q hq => hmut q (List.mem_cons_of_mem _ hq)) hmem2

/-- Membership transfers from the sorted-and-filtered listing back to the
directory. -/
theorem mem_files_of_mem_filtered {files : List (String × List Nat)}
    {p : String × List Nat}
    (h : p ∈ (sortFiles files).filter (fun f => f.1 ≠ "integrity.hmac")) :
    p ∈ files :=
  (sortFiles_perm files).mem_iff.mp (List.mem_of_mem_filter h)

/-- C2: building the manifest over a nonempty directory of distinct,
whitespace-free file names and then verifying it against the unmodified
directory returns `true`; and replacing any non-manifest file's bytes with
content whose HMAC differs makes verification fail with the checksum
mismatch error naming that file. The manifest name `integrity.hmac` is
excluded from the listing during both build and verify. -/
theorem c2_integrity_round_trip (files : List (String × List Nat)) (password : String)
    (hne : files ≠ []) (hpw : password ≠ "")
    (hnd : (files.map Prod.fst).Nodup)
    (hg : ∀ p ∈ files, goodName p.1 = true) :
    ((create_integrity_file files password).bind
        (fun m => verify_integrity m files password)) = .ok true
    ∧ ∀ name orig mutc, (name, orig) ∈ files → name ≠ "integrity.hmac" →
        bytesHex (hmacSha256 (utf8Encode password) mutc)
          ≠ bytesHex (hmacSha256 (utf8Encode password) orig) →
        ((create_integrity_file files password).bind
            (fun m => verify_integrity m (omSet files name mutc) password))
          = .error ("Checksum mismatch for file " ++ name) := by
  have hpw' : utf8Encode password ≠ [] := utf8Encode_ne_nil hpw
  rw [create_integrity_ok files password hne hpw]
  have hgsub : ∀ p ∈ (sortFiles files).filter (fun f => f.1 ≠ "integrity.hmac"),
      goodName p.1 = true :=
    fun p hp => hg p (mem_files_of_mem_filtered hp)
  have hlines : linesOf (manifestSpec files password)
      = ((sortFiles files).filter (fun f => f.1 ≠ "integrity.hmac")).map
          (fun f => bytesHex (hmacSha256 (utf8Encode password) f.2) ++ "  " ++ f.1) := by
    rw [manifestSpec]
    exact linesOf_manifest _ _ hgsub
  constructor
  · show verify_integrity (manifestSpec files password) files password = .ok true
    rw [verify_integrity, hlines]
    exact verifyLines_all_ok files _ hpw' _ hgsub
      (fun p hp _ => omFind_eq_some_of_mem hnd (mem_files_of_mem_filtered hp))
  · intro name orig mutc hmemf hni hdiff
    show verify_integrity (manifestSpec files password) (omSet files name mutc) password = _
    rw [verify_integrity, hlines]
    have horig : omFind files name = some orig := omFind_eq_some_of_mem hnd hmemf
    apply verifyLines_mismatch (omSet files name mutc) _ hpw' name mutc _ hni _ hgsub
    · intro p hp hpn _
      rw [omFind_omSet, if_neg (fun e => hpn e.symm)]
      exact omFind_eq_some_of_mem hnd (mem_files_of_mem_filtered hp)
    · intro p hp hpn
      have hfp : omFind files p.1 = some p.2 :=
        omFind_eq_some_of_mem hnd (mem_files_of_mem_filtered hp)
      rw [hpn, horig] at hfp
      rw [show p.2 = orig from (Option.some_inj.mp hfp).symm]
      exact hdiff
    · rw [List.mem_map]
      refine ⟨(name, orig), ?_, rfl⟩
      rw [List.mem_filter]
      exact ⟨(sortFiles_perm files).symm.subset hmemf, by simpa using hni⟩
    · rw [omFind_omSet]
      simp

/-- C2 witness: the round trip at a concrete two-file directory. -/
theorem c2_integrity_round_trip_witness :
    ((create_integrity_file [("a", [1]), ("b", [2])] "pw").bind
        (fun m => verify_integrity m [("a", [1]), ("b", [2])] "pw")) = .ok true :=
  (c2_integrity_round_trip [("a", [1]), ("b", [2])] "pw" (by decide) (by decide)
    (by decide) (by decide)).1

set_option maxRecDepth 100000 in
/-- C5 counterexample: the manifest of a one-file directory under password
`pw` is a single HMAC line with no `salt:` header, and its tag is
HMAC-SHA256 of the file bytes keyed directly by the raw UTF-8 password
bytes — no salt is generated and no PBKDF2 derivation is performed. -/
theorem c5_counterexample :
    create_integrity_file [("a", [104, 105])] "pw"
      = .ok "41e9bc114cc97dac46d7fe083053b8637f38a392712b5d95ddc250392a0e0286  a\n"
    ∧ bytesHex (hmacSha256 (utf8Encode "pw") [104, 105])
      = "41e9bc114cc97dac46d7fe083053b8637f38a392712b5d95ddc250392a0e0286"
    ∧ ("41e9bc114cc97dac46d7fe083053b8637f38a392712b5d95ddc250392a0e0286  a\n".take 6
        ≠ "salt: ") :=
  ⟨rfl, rfl, by decide⟩

/-- C5 amended: in keyed-MAC mode no salt is generated and no key
derivation is performed; the MAC key is the raw UTF-8 encoding of the
integrity password, each per-file tag is HMAC-SHA256 of the file bytes
under that key, and the manifest consists solely of one
`<hex-tag>␣␣<filename>` line per sorted non-manifest file, with no
`salt:` line. -/
theorem c5_manifest_amended (files : List (String × List Nat)) (password : String)
    (hf : files ≠ []) (hp : password ≠ "") :
    create_integrity_file files password = .ok (manifestSpec files password) :=
  create_integrity_ok files password hf hp

/-- C5 witness: the amended manifest shape at a concrete directory. -/
theorem c5_manifest_amended_witness :
    (([("a", [104, 105])] : List (String × List Nat)) ≠ [] ∧ ("pw" : String) ≠ "")
    ∧ create_integrity_file [("a", [104, 105])] "pw"
        = .ok (manifestSpec [("a", [104, 105])] "pw") :=
  ⟨⟨by decide, by decide⟩, c5_manifest_amended _ _ (by decide) (by decide)⟩

/-! ### C3 / C8: the AEAD layer (`encryption_service.py` / `decryption_service.py`)

`AESGCM` from `cryptography` (pinned 45.0.5) is AES-GCM per NIST SP 800-38D
with the tag appended to the ciphertext. GCM is modelled concretely (GHASH
over GF(2^128), 32-bit counter mode, tag construction); the AES block
permutation itself is a parameter `E : key → block → block` producing
16-byte blocks, so every theorem below holds for the actual AES-256 core. -/

/-- Big-endian bytes to a natural number (`int.from_bytes(bs, "big")`). -/
def beBytesToNat (bs : List Nat) : Nat :=
  bs.foldl (fun a b => a * 256 + b) 0

/-- Zero-pad a byte string on the right to a multiple of 16 bytes. -/
def padTo16 (bs : List Nat) : List Nat :=
  bs ++ List.replicate ((16 - bs.length % 16) % 16) 0

/-- Split into 16-byte blocks (fuel-driven; `fuel ≥ length` suffices). -/
def chunk16 : Nat → List Nat → List (List Nat)
  | 0, _ => []
  | _, [] => []
  | fuel + 1, bs => bs.take 16 :: chunk16 fuel (bs.drop 16)

/-- The GCM reduction constant `R = 0xe1 · 2^120`. -/
def gfR : Nat := 225 <<< 120

/-- Multiplication in GF(2^128) with GCM's bit order (SP 800-38D alg. 1). -/
def gfMul (x y : Nat) : Nat :=
  ((List.range 128).foldl
    (fun (p : Nat × Nat) i =>
      let z := if (x >>> (127 - i)) % 2 = 1 then p.1 ^^^ p.2 else p.1
      let v := if p.2 % 2 = 1 then (p.2 >>> 1) ^^^ gfR else p.2 >>> 1
      (z, v))
    (0, y)).1

/-- GHASH compression over a list of 16-byte blocks. -/
def ghashBlocks (h : Nat) : List (List Nat) → Nat → Nat
  | [], y => y
  | b :: rest, y => ghashBlocks h rest (gfMul (y ^^^ beBytesToNat b) h)

/-- GHASH of a byte string (length a multiple of 16) under hash key `h`. -/
def ghash (h : Nat) (bs : List Nat) : Nat :=
  ghashBlocks h (chunk16 bs.length bs) 0

/-- Increment the low 32 bits of a 128-bit counter block. -/
def inc32 (b : Nat) : Nat :=
  ((b >>> 32) <<< 32) + ((b % 4294967296 + 1) % 4294967296)

/-- Byte-wise XOR (truncating to the shorter input). -/
def xorBytes (a b : List Nat) : List Nat :=
  List.zipWith (fun x y => x ^^^ y) a b

/-- GCTR counter mode: encrypt/decrypt `data` with counter blocks from
`icb`; the last keystream block is truncated to the data remainder. -/
def gctr (E : List Nat → List Nat → List Nat) (key : List Nat) :
    Nat → Nat → List Nat → List Nat
  | _, 0, _ => []
  | icb, fuel + 1, data =>
    if data = [] then []
    else
      xorBytes (data.take 16) (E key (natToBytesBE 16 icb))
        ++ gctr E key (inc32 icb) fuel (data.drop 16)

/-- The GCM hash subkey `H = E_K(0^128)`. -/
def gcmH (E : List Nat → List Nat → List Nat) (key : List Nat) : Nat :=
  beBytesToNat (E key (List.replicate 16 0))

/-- The pre-counter block `J0`: `nonce ∥ 0^31 ∥ 1` for a 12-byte nonce,
otherwise the GHASH of the padded nonce and its bit length. -/
def gcmJ0 (E : List Nat → List Nat → List Nat) (key nonce : List Nat) : Nat :=
  if nonce.length = 12 then beBytesToNat nonce * 4294967296 + 1
  else ghash (gcmH E key) (padTo16 nonce ++ natToBytesBE 16 (nonce.length * 8))

/-- The authentication tag over ciphertext `c` with empty additional data:
`E_K(J0) ⊕ GHASH_H(pad(c) ∥ len(A) ∥ len(c))`. -/
def gcmTag (E : List Nat → List Nat → List Nat) (key nonce c : List Nat) : List Nat :=
  xorBytes (E key (natToBytesBE 16 (gcmJ0 E key nonce)))
    (natToBytesBE 16 (ghash (gcmH E key)
      (padTo16 c ++ natToBytesBE 8 0 ++ natToBytesBE 8 (c.length * 8))))

/-- `AESGCM(key).encrypt(nonce, p, None)`: the library validates the key
and nonce sizes, then returns `ciphertext ∥ tag`. -/
def aesgcmEncryptLib (E : List Nat → List Nat → List Nat)
    (key nonce p : List Nat) : Except String (List Nat) :=
  if ¬ (key.length = 16 ∨ key.length = 24 ∨ key.length = 32) then
    .error "Invalid key size for this algorithm"
  else if ¬ (8 ≤ nonce.length ∧ nonce.length ≤ 128) then
    .error "Nonce must be between 8 and 128 bytes"
  else
    let c := gctr E key (inc32 (gcmJ0 E key nonce)) p.length p
    .ok (c ++ gcmTag E key nonce c)

/-- `AESGCM(key).decrypt(nonce, data, None)`: the library validates the
key and nonce sizes, splits the trailing 16 bytes as the tag, recomputes
it and compares; on mismatch (or data too short to hold a tag) it raises
`InvalidTag`. -/
def aesgcmDecryptLib (E : List Nat → List Nat → List Nat)
    (key nonce data : List Nat) : Except String (List Nat) :=
  if ¬ (key.length = 16 ∨ key.length = 24 ∨ key.length = 32) then
    .error "Invalid key size for this algorithm"
  else if ¬ (8 ≤ nonce.length ∧ nonce.length ≤ 128) then
    .error "Nonce must be between 8 and 128 bytes"
  else if data.length < 16 then
    .error "Authentication tag was invalid"
  else
    let c := data.take (data.length - 16)
    let t := data.drop (data.length - 16)
    if gcmTag E key nonce c = t then
      .ok (gctr E key (inc32 (gcmJ0 E key nonce)) c.length c)
    else .error "Authentication tag was invalid"

/-- `EncryptionService.encrypt_using_symmetric_key` on the file bytes
`plaintext`: the freshly drawn `key` (32 bytes) and `nonce` (12 bytes) are
environment randomness passed explicitly; the bytes written to the `.enc`
file are `nonce ∥ aesgcm.encrypt(...)`; any exception inside the `try` is
replaced by `RuntimeError("Failed to encrypt data with symmetric key")`. -/
def encrypt_using_symmetric_key (E : List Nat → List Nat → List Nat)
    (key nonce plaintext : List Nat) : Except String (List Nat) :=
  match aesgcmEncryptLib E key nonce plaintext with
  | .error _ => .error "Failed to encrypt data with symmetric key"
  | .ok ct => .ok (nonce ++ ct)

/-- `DecryptionService.decrypt_data` on the `.enc` file bytes: an empty
key is rejected up front with a `ValueError` (outside the `try`, so not
re-wrapped); the first 12 bytes are split off as the nonce and the
remainder decrypted; any exception inside the `try` is replaced by
`RuntimeError("Failed to decrypt data")`. -/
def decrypt_data (E : List Nat → List Nat → List Nat)
    (key data : List Nat) : Except String (List Nat) :=
  if key = [] then .error "Symmetric key is not provided for decryption."
  else
    match aesgcmDecryptLib E key (data.take 12) (data.drop 12) with
    | .error _ => .error "Failed to decrypt data"
    | .ok p => .ok p

/-- A degenerate 16-byte block function used to instantiate the theorems
at concrete inputs. -/
def zeroBlockCipher (k b : List Nat) : List Nat :=
  (fun _ _ => List.replicate 16 0) k b

/-! ### GCTR facts -/

theorem gctr_nil (E : List Nat → List Nat → List Nat) (key : List Nat)
    (icb fuel : Nat) : gctr E key icb fuel [] = [] := by
  cases fuel with
  | zero => rfl
  | succ f => simp [gctr]

theorem xorBytes_length (a b : List Nat) :
    (xorBytes a b).length = min a.length b.length := by
  simp [xorBytes]

theorem gctr_length (E : List Nat → List Nat → List Nat) (key : List Nat)
    (hE : ∀ k b, (E k b).length = 16) :
    ∀ (fuel : Nat) (icb : Nat) (d : List Nat), d.length ≤ fuel →
    (gctr E key icb fuel d).length = d.length := by
  intro fuel
  induction fuel with
  | zero =>
    intro icb d hd
    rw [List.length_eq_zero.mp (Nat.le_zero.mp hd)]
    rfl
  | succ f ih =>
    intro icb d hd
    by_cases hnil : d = []
    · rw [hnil]; rfl
    · have h1 : 1 ≤ d.length := List.length_pos.mpr hnil
      simp only [gctr, if_neg hnil, List.length_append, xorBytes_length,
        List.length_take, hE]
      rw [ih (inc32 icb) (d.drop 16) (by simp; omega)]
      simp
      omega

theorem xorBytes_xorBytes (a : List Nat) :
    ∀ k : List Nat, a.length ≤ k.length → xorBytes (xorBytes a k) k = a := by
  induction a with
  | nil => intro k _; rfl
  | cons x xs ih =>
    intro k hk
    cases k with
    | nil => simp at hk
    | cons y ys =>
      simp only [xorBytes, List.zipWith_cons_cons, Nat.xor_cancel_right, List.cons.injEq]
      exact ⟨trivial, ih ys (by simpa using hk)⟩

theorem gctr_inv (E : List Nat → List Nat → List Nat) (key : List Nat)
    (hE : ∀ k b, (E k b).length = 16) :
    ∀ (fuel : Nat) (icb : Nat) (p : List Nat), p.length ≤ fuel →
    gctr E key icb fuel (gctr E key icb fuel p) = p := by
  intro fuel
  induction fuel with
  | zero =>
    intro icb p hp
    rw [List.length_eq_zero.mp (Nat.le_zero.mp hp)]
    rfl
  | succ f ih =>
    intro icb p hp
    by_cases hnil : p = []
    · rw [hnil, gctr_nil, gctr_nil]
    · have h1 : 1 ≤ p.length := List.length_pos.mpr hnil
      have hkl : (E key (natToBytesBE 16 icb)).length = 16 := hE _ _
      have hul : (xorBytes (p.take 16) (E key (natToBytesBE 16 icb))).length
          = min p.length 16 := by
        rw [xorBytes_length, List.length_take, hkl]
        omega
      have hinner : gctr E key icb (f + 1) p
          = xorBytes (p.take 16) (E key (natToBytesBE 16 icb))
            ++ gctr E key (inc32 icb) f (p.drop 16) := by
        simp [gctr, if_neg hnil]
      have hinner_ne : gctr E key icb (f + 1) p ≠ [] := by
        rw [hinner]
        intro he
        have := congrArg List.length he
        simp only [List.length_append, hul, List.length_nil] at this
        omega
      rw [hinner]
      have houter : gctr E key icb (f + 1)
          (xorBytes (p.take 16) (E key (natToBytesBE 16 icb))
            ++ gctr E key (inc32 icb) f (p.drop 16))
          = xorBytes ((xorBytes (p.take 16) (E key (natToBytesBE 16 icb))
              ++ gctr E key (inc32 icb) f (p.drop 16)).take 16)
              (E key (natToBytesBE 16 icb))
            ++ gctr E key (inc32 icb) f
              ((xorBytes (p.take 16) (E key (natToBytesBE 16 icb))
                ++ gctr E key (inc32 icb) f (p.drop 16)).drop 16) := by
      -- the concatenation is nonempty, so the cons equation applies
        rw [← hinner]
        rw [hinner]
        simp only [gctr]
        rw [if_neg (by rw [← hinner]; exact hinner_ne)]
      rw [houter]
      by_cases hlen : 16 ≤ p.length
      · have htk : (xorBytes (p.take 16) (E key (natToBytesBE 16 icb))
            ++ gctr E key (inc32 icb) f (p.drop 16)).take 16
            = xorBytes (p.take 16) (E key (natToBytesBE 16 icb)) := by
          rw [List.take_append_of_le_length (by omega), List.take_of_length_le (by omega)]
        have hdr : (xorBytes (p.take 16) (E key (natToBytesBE 16 icb))
            ++ gctr E key (inc32 icb) f (p.drop 16)).drop 16
            = gctr E key (inc32 icb) f (p.drop 16) := by
          rw [List.drop_append_of_le_length (by omega),
            List.drop_of_length_le (by omega), List.nil_append]
        rw [htk, hdr,
          xorBytes_xorBytes _ _ (by rw [List.length_take, hkl]; omega),
          ih (inc32 icb) (p.drop 16) (by simp; omega),
          List.take_append_drop]
      · have hdrop : p.drop 16 = [] := List.drop_eq_nil_of_le (by omega)
        have htake : p.take 16 = p := List.take_of_length_le (by omega)
        rw [hdrop, gctr_nil, List.append_nil,
          List.take_of_length_le (by rw [hul]; omega),
          List.drop_eq_nil_of_le (by rw [hul]; omega),
          gctr_nil, List.append_nil,
          xorBytes_xorBytes _ _ (by rw [List.length_take, hkl]; omega),
          htake]

/-- The tag always has 16 bytes. -/
theorem gcmTag_length (E : List Nat → List Nat → List Nat)
    (hE : ∀ k b, (E k b).length = 16) (key nonce c : List Nat) :
    (gcmTag E key nonce c).length = 16 := by
  simp [gcmTag, xorBytes_length, hE, natToBytesBE_length]

/-- Helper: with a valid key and nonce the encrypt service succeeds and
returns the nonce, the GCTR ciphertext and the tag. -/
theorem encrypt_eq (E : List Nat → List Nat → List Nat)
    (key nonce p : List Nat) (hk : key.length = 32) (hn : nonce.length = 12) :
    encrypt_using_symmetric_key E key nonce p
      = .ok (nonce ++ (gctr E key (inc32 (gcmJ0 E key nonce)) p.length p
          ++ gcmTag E key nonce (gctr E key (inc32 (gcmJ0 E key nonce)) p.length p))) := by
  have hkeyok : key.length = 16 ∨ key.length = 24 ∨ key.length = 32 := Or.inr (Or.inr hk)
  have hnonceok : 8 ≤ nonce.length ∧ nonce.length ≤ 128 := by omega
  simp only [encrypt_using_symmetric_key, aesgcmEncryptLib,
    if_neg (not_not_intro hkeyok), if_neg (not_not_intro hnonceok)]

/-- Helper: decrypt inverts encrypt on its own output. -/
theorem decrypt_encrypt (E : List Nat → List Nat → List Nat)
    (hE : ∀ k b, (E k b).length = 16)
    (key nonce p : List Nat) (hk : key.length = 32) (hn : nonce.length = 12) :
    decrypt_data E key (nonce ++ (gctr E key (inc32 (gcmJ0 E key nonce)) p.length p
        ++ gcmTag E key nonce (gctr E key (inc32 (gcmJ0 E key nonce)) p.length p)))
      = .ok p := by
  have hkeyok : key.length = 16 ∨ key.length = 24 ∨ key.length = 32 := Or.inr (Or.inr hk)
  have hnonceok : 8 ≤ nonce.length ∧ nonce.length ≤ 128 := by omega
  have hkne : key ≠ [] := by intro e; rw [e] at hk; simp at hk
  have hclen : (gctr E key (inc32 (gcmJ0 E key nonce)) p.length p).length = p.length :=
    gctr_length E key hE p.length _ p (le_refl _)
  have htlen : (gcmTag E key nonce
      (gctr E key (inc32 (gcmJ0 E key nonce)) p.length p)).length = 16 :=
    gcmTag_length E hE key nonce _
  have htk12 : ∀ X : List Nat, (nonce ++ X).take 12 = nonce := by
    intro X
    rw [← hn, List.take_append_of_le_length (le_refl _),
      List.take_of_length_le (le_refl _)]
  have hdr12 : ∀ X : List Nat, (nonce ++ X).drop 12 = X := by
    intro X
    rw [← hn, List.drop_append_of_le_length (le_refl _),
      List.drop_of_length_le (le_refl _), List.nil_append]
  have hd1 : (gctr E key (inc32 (gcmJ0 E key nonce)) p.length p
      ++ gcmTag E key nonce (gctr E key (inc32 (gcmJ0 E key nonce)) p.length p)).length
      = p.length + 16 := by
    rw [List.length_append, hclen, htlen]
  have hlt : ¬ ((gctr E key (inc32 (gcmJ0 E key nonce)) p.length p
      ++ gcmTag E key nonce (gctr E key (inc32 (gcmJ0 E key nonce)) p.length p)).length
      < 16) := by
    rw [hd1]; omega
  have harith : (gctr E key (inc32 (gcmJ0 E key nonce)) p.length p
      ++ gcmTag E key nonce (gctr E key (inc32 (gcmJ0 E key nonce)) p.length p)).length - 16
      = (gctr E key (inc32 (gcmJ0 E key nonce)) p.length p).length := by
    rw [hd1, hclen]
    omega
  have htkc : (gctr E key (inc32 (gcmJ0 E key nonce)) p.length p
      ++ gcmTag E key nonce (gctr E key (inc32 (gcmJ0 E key nonce)) p.length p)).take
        ((gctr E key (inc32 (gcmJ0 E key nonce)) p.length p
          ++ gcmTag E key nonce (gctr E key (inc32 (gcmJ0 E key nonce)) p.length p)).length - 16)
      = gctr E key (inc32 (gcmJ0 E key nonce)) p.length p := by
    rw [harith, List.take_append_of_le_length (le_refl _),
      List.take_of_length_le (le_refl _)]
  have hdrc : (gctr E key (inc32 (gcmJ0 E key nonce)) p.length p
      ++ gcmTag E key nonce (gctr E key (inc32 (gcmJ0 E key nonce)) p.length p)).drop
        ((gctr E key (inc32 (gcmJ0 E key nonce)) p.length p
          ++ gcmTag E key nonce (gctr E key (inc32 (gcmJ0 E key nonce)) p.length p)).length - 16)
      = gcmTag E key nonce (gctr E key (inc32 (gcmJ0 E key nonce)) p.length p) := by
    rw [harith, List.drop_append_of_le_length (le_refl _),
      List.drop_of_length_le (le_refl _), List.nil_append]
  simp only [decrypt_data, if_neg hkne, htk12, hdr12, aesgcmDecryptLib,
    if_neg (not_not_intro hkeyok), if_neg (not_not_intro hnonceok), if_neg hlt,
    htkc, hdrc]
  simp only [if_true, hclen,
    gctr_inv E key hE p.length (inc32 (gcmJ0 E key nonce)) p (le_refl _)]

/-- C3: for every 16-byte block-cipher core, 32-byte key, 12-byte nonce
and plaintext, the encrypt service outputs `nonce ∥ ciphertext ∥ tag` with
the ciphertext as long as the plaintext and a 16-byte tag; decrypt splits
the first 12 bytes as the nonce and inverts encrypt; and any input whose
recomputed tag differs from its stored trailing 16 bytes makes decrypt
fail with `RuntimeError("Failed to decrypt data")`. -/
theorem c3_aead_round_trip (E : List Nat → List Nat → List Nat)
    (hE : ∀ k b, (E k b).length = 16)
    (key nonce p : List Nat) (hk : key.length = 32) (hn : nonce.length = 12) :
    (∃ ct tag, encrypt_using_symmetric_key E key nonce p = .ok (nonce ++ ct ++ tag)
      ∧ ct.length = p.length ∧ tag.length = 16)
    ∧ ((encrypt_using_symmetric_key E key nonce p).bind
        (fun out => decrypt_data E key out)) = .ok p
    ∧ (∀ d : List Nat, 28 ≤ d.length →
        gcmTag E key (d.take 12) ((d.drop 12).take ((d.drop 12).length - 16))
          ≠ (d.drop 12).drop ((d.drop 12).length - 16) →
        decrypt_data E key d = .error "Failed to decrypt data") := by
  have hkeyok : key.length = 16 ∨ key.length = 24 ∨ key.length = 32 := Or.inr (Or.inr hk)
  have hkne : key ≠ [] := by intro e; rw [e] at hk; simp at hk
  have henc := encrypt_eq E key nonce p hk hn
  refine ⟨⟨gctr E key (inc32 (gcmJ0 E key nonce)) p.length p,
      gcmTag E key nonce (gctr E key (inc32 (gcmJ0 E key nonce)) p.length p), ?_,
      gctr_length E key hE p.length _ p (le_refl _),
      gcmTag_length E hE key nonce _⟩, ?_, ?_⟩
  · rw [henc, List.append_assoc]
  · rw [henc]
    exact decrypt_encrypt E hE key nonce p hk hn
  · intro d hd28 htagne
    have h12 : (d.take 12).length = 12 := by
      rw [List.length_take]; omega
    have hnonceok : 8 ≤ (d.take 12).length ∧ (d.take 12).length ≤ 128 := by
      rw [h12]; omega
    have hrest : ¬ ((d.drop 12).length < 16) := by
      rw [List.length_drop]; omega
    simp only [decrypt_data, if_neg hkne, aesgcmDecryptLib,
      if_neg (not_not_intro hkeyok), if_neg (not_not_intro hnonceok), if_neg hrest,
      if_neg htagne]

/-- C3 witness: the round trip at a concrete cipher, key, nonce and
plaintext. -/
theorem c3_aead_round_trip_witness :
    (∀ k b, (zeroBlockCipher k b).length = 16)
    ∧ (List.replicate 32 7 : List Nat).length = 32
    ∧ (List.replicate 12 5 : List Nat).length = 12
    ∧ ((encrypt_using_symmetric_key zeroBlockCipher (List.replicate 32 7)
          (List.replicate 12 5) [1, 2, 3]).bind
        (fun out => decrypt_data zeroBlockCipher (List.replicate 32 7) out))
      = .ok [1, 2, 3] :=
  ⟨fun k b => by simp [zeroBlockCipher], by decide, by decide,
    (c3_aead_round_trip zeroBlockCipher (fun k b => by simp [zeroBlockCipher])
      (List.replicate 32 7) (List.replicate 12 5) [1, 2, 3]
      (by decide) (by decide)).2.1⟩

set_option maxRecDepth 100000 in
/-- C8 counterexample: encrypting an empty plaintext does not fail — the
service returns the 12-byte nonce followed by the 16-byte tag, 28 bytes in
total with a zero-length ciphertext. -/
theorem c8_counterexample :
    encrypt_using_symmetric_key zeroBlockCipher (List.replicate 32 0)
        (List.replicate 12 0) []
      = .ok (List.replicate 12 0 ++ List.replicate 16 0)
    ∧ (List.replicate 12 0 ++ List.replicate 16 0 : List Nat).length = 28 :=
  ⟨rfl, by decide⟩

/-- Helper: any library-level failure surfaces as the wrapped runtime
error of `decrypt_data`. -/
theorem decrypt_wrap_error (E : List Nat → List Nat → List Nat)
    (key data : List Nat) (hk : key ≠ []) (e : String)
    (h : aesgcmDecryptLib E key (data.take 12) (data.drop 12) = .error e) :
    decrypt_data E key data = .error "Failed to decrypt data" := by
  simp only [decrypt_data, if_neg hk, h]

/-- Helper: on empty input the AEAD rejects the empty nonce (or, for an
invalid key length, the key) before any decryption happens. -/
theorem aesgcmDecryptLib_empty (E : List Nat → List Nat → List Nat)
    (key : List Nat) :
    ∃ e, aesgcmDecryptLib E key (([] : List Nat).take 12) (([] : List Nat).drop 12)
      = .error e := by
  unfold aesgcmDecryptLib
  by_cases h1 : key.length = 16 ∨ key.length = 24 ∨ key.length = 32
  · refine ⟨"Nonce must be between 8 and 128 bytes", ?_⟩
    rw [if_neg (not_not_intro h1), if_pos (by simp)]
  · exact ⟨_, if_pos h1⟩

/-- C8 amended: empty input is an error only on the decrypt side —
encrypting an empty plaintext succeeds and yields a 28-byte
`nonce ∥ tag` output with zero-length ciphertext, while decrypting an
empty input fails with `RuntimeError("Failed to decrypt data")` (its
12-byte nonce split is empty, which the AEAD rejects). -/
theorem c8_empty_amended (E : List Nat → List Nat → List Nat)
    (hE : ∀ k b, (E k b).length = 16)
    (key nonce : List Nat) (hk : key.length = 32) (hn : nonce.length = 12) :
    (∃ out, encrypt_using_symmetric_key E key nonce [] = .ok out ∧ out.length = 28)
    ∧ decrypt_data E key [] = .error "Failed to decrypt data" := by
  have hkne : key ≠ [] := by intro e; rw [e] at hk; simp at hk
  constructor
  · refine ⟨nonce ++ (gctr E key (inc32 (gcmJ0 E key nonce)) 0 []
        ++ gcmTag E key nonce (gctr E key (inc32 (gcmJ0 E key nonce)) 0 [])), ?_, ?_⟩
    · exact encrypt_eq E key nonce [] hk hn
    · have : gctr E key (inc32 (gcmJ0 E key nonce)) 0 [] = [] := rfl
      rw [this, List.nil_append, List.length_append, hn,
        gcmTag_length E hE key nonce []]
  · obtain ⟨e, he⟩ := aesgcmDecryptLib_empty E key
    exact decrypt_wrap_error E key [] hkne e he

/-- C8 witness: the amended behaviour at a concrete cipher and key. -/
theorem c8_empty_amended_witness :
    (List.replicate 32 9 : List Nat).length = 32
    ∧ (List.replicate 12 9 : List Nat).length = 12
    ∧ decrypt_data zeroBlockCipher (List.replicate 32 9) []
        = .error "Failed to decrypt data" :=
  ⟨by decide, by decide,
    (c8_empty_amended zeroBlockCipher (fun k b => by simp [zeroBlockCipher])
      (List.replicate 32 9) (List.replicate 12 9) (by decide) (by decide)).2⟩

end Backy
